import Mathlib

/-!
# Verification of the katalyst-os block storage engine

This file gives a shallow embedding, in Lean 4, of the storage core of the
katalyst-os kernel:

* the serializable mirror structure `SFile`/`SDir` and the byte codec used for
  it (the `postcard` wire format: LEB128 varint length prefixes followed by raw
  bytes, structs field by field, sequences as a varint count followed by the
  elements) — `src/fs/persist.rs` lines 18–22 together with
  `postcard::to_allocvec` / `postcard::from_bytes`;
* the live directory tree (`Directory`/`File`, ordered maps keyed by name) and
  the conversions `to_serializable` / `from_serializable` —
  `src/fs/dir.rs`, `src/fs/file.rs`, `src/fs/persist.rs` lines 24–48;
* the persistence manager `save_to_disk` / `load_from_disk` with its on-disk
  framing (magic, little-endian length, zero padding to a sector multiple) and
  ≤255-sector chunking — `src/fs/persist.rs` lines 50–114;
* the ATA polled driver `ata_present` / `ata_wait_ready` / `ata_wait_drq` /
  `read_lba28` / `write_lba28` — `src/block/ata.rs`.

Bytes are modelled as `Nat` (values produced by the code are `< 256`; machine
integer truncations that the code performs, such as `data.len() as u32`, are
modelled explicitly with `% 2^32`).  Strings are modelled by their UTF-8 byte
sequences (`List Nat`), which is exactly the form in which `postcard` puts them
on the wire.  Recursive functions over byte lists or over the recursive tree
types are written structurally over an explicit fuel argument (with the fuel
instantiated to a provably sufficient value), so that every definition is
executable by kernel reduction.
-/

set_option maxHeartbeats 1000000
set_option maxRecDepth 4000
set_option linter.unusedVariables false

namespace Katalyst

/-! ## LEB128 varints (postcard's length/count encoding) -/

/-- One unfolding step of unsigned-LEB128 encoding, structural over a fuel
argument.  `encodeVarintF fuel n` agrees with the true LEB128 encoding whenever
`n ≤ fuel` (each step divides `n` by 128). -/
def encodeVarintF : Nat → Nat → List Nat
  | 0, n => [n % 128]
  | fuel + 1, n => if n < 128 then [n] else (n % 128 + 128) :: encodeVarintF fuel (n / 128)

/-- Unsigned LEB128 encoding of `n`: 7 bits per byte, least significant group
first, high bit of a byte set iff more bytes follow.  This is how `postcard`
encodes the `usize` lengths of strings, byte vectors and sequences. -/
def encodeVarint (n : Nat) : List Nat :=
  encodeVarintF n n

/-- Unsigned LEB128 decoding: inverse of `encodeVarint`, returning the decoded
value and the unconsumed remainder of the input. -/
def decodeVarint : List Nat → Option (Nat × List Nat)
  | [] => none
  | b :: rest =>
    if b < 128 then some (b, rest)
    else
      match decodeVarint rest with
      | none => none
      | some (n, r) => some (b - 128 + 128 * n, r)

theorem encodeVarintF_irrel (f₁ : Nat) :
    ∀ f₂ n, n ≤ f₁ → n ≤ f₂ → encodeVarintF f₁ n = encodeVarintF f₂ n := by
  induction f₁ with
  | zero =>
    intro f₂ n h1 _
    interval_cases n
    cases f₂ <;> simp [encodeVarintF]
  | succ f ih =>
    intro f₂ n h1 h2
    cases f₂ with
    | zero =>
      interval_cases n
      simp [encodeVarintF]
    | succ f₂ =>
      by_cases hn : n < 128
      · simp [encodeVarintF, hn]
      · have hlt : n / 128 < n := Nat.div_lt_self (by omega) (by omega)
        simp only [encodeVarintF, hn, if_false]
        rw [ih f₂ (n / 128) (by omega) (by omega)]

theorem encodeVarintF_eq (fuel n : Nat) (h : n ≤ fuel) :
    encodeVarintF fuel n = encodeVarint n :=
  encodeVarintF_irrel fuel n n h le_rfl

theorem encodeVarint_small {n : Nat} (h : n < 128) : encodeVarint n = [n] := by
  cases n with
  | zero => rfl
  | succ m => simp [encodeVarint, encodeVarintF, h]

theorem encodeVarint_large {n : Nat} (h : 128 ≤ n) :
    encodeVarint n = (n % 128 + 128) :: encodeVarint (n / 128) := by
  have h1 : n / 128 < n := Nat.div_lt_self (by omega) (by omega)
  obtain ⟨m, rfl⟩ : ∃ m, n = m + 1 := ⟨n - 1, by omega⟩
  simp only [encodeVarint, encodeVarintF, Nat.not_lt.mpr h, if_false]
  rw [encodeVarintF_eq m ((m + 1) / 128) (by omega)]
  rfl

theorem length_encodeVarintF_pos (fuel n : Nat) : 1 ≤ (encodeVarintF fuel n).length := by
  cases fuel with
  | zero => simp [encodeVarintF]
  | succ f =>
    by_cases hn : n < 128 <;> simp [encodeVarintF, hn]

theorem length_encodeVarint_pos (n : Nat) : 1 ≤ (encodeVarint n).length :=
  length_encodeVarintF_pos n n

theorem decodeVarint_encodeVarint (n : Nat) (rest : List Nat) :
    decodeVarint (encodeVarint n ++ rest) = some (n, rest) := by
  suffices h : ∀ fuel n, n ≤ fuel → ∀ rest,
      decodeVarint (encodeVarintF fuel n ++ rest) = some (n, rest) by
    exact h n n le_rfl rest
  intro fuel
  induction fuel with
  | zero =>
    intro n h rest
    interval_cases n
    simp [encodeVarintF, decodeVarint]
  | succ f ih =>
    intro n h rest
    by_cases hn : n < 128
    · simp [encodeVarintF, decodeVarint, hn]
    · have hb : ¬ n % 128 + 128 < 128 := by omega
      have hdiv : n / 128 ≤ f := by
        have : n / 128 < n := Nat.div_lt_self (by omega) (by omega)
        omega
      simp only [encodeVarintF, hn, if_false, List.cons_append, decodeVarint, hb,
        ih (n / 128) hdiv rest]
      have heq : n % 128 + 128 - 128 + 128 * (n / 128) = n := by omega
      simp only [heq]

/-! ## Length-prefixed byte strings (postcard `String` / `Vec<u8>`) -/

/-- postcard encoding of a byte string (also of a UTF-8 string): varint length
followed by the raw bytes. -/
def encodeBytes (bs : List Nat) : List Nat :=
  encodeVarint bs.length ++ bs

/-- Inverse of `encodeBytes`: read a varint length `n`, fail if fewer than `n`
bytes remain, otherwise return the first `n` bytes and the remainder. -/
def decodeBytes (input : List Nat) : Option (List Nat × List Nat) :=
  match decodeVarint input with
  | none => none
  | some (n, rest) =>
    if rest.length < n then none else some (rest.take n, rest.drop n)

theorem decodeBytes_encodeBytes (bs rest : List Nat) :
    decodeBytes (encodeBytes bs ++ rest) = some (bs, rest) := by
  simp only [encodeBytes, List.append_assoc, decodeBytes, decodeVarint_encodeVarint]
  have hlen : ¬ (bs ++ rest).length < bs.length := by
    simp [List.length_append]
  simp [hlen, List.take_left, List.drop_left]

/-! ## The serializable mirror structure (`SFile` / `SDir`)

`persist.rs` lines 18–22:
`struct SFile { name: String, content: Vec<u8> }`,
`struct SDir { name: String, files: Vec<SFile>, subdirs: Vec<SDir> }`.
Names are modelled as their UTF-8 byte sequences. -/

structure SFile where
  name : List Nat
  content : List Nat
deriving DecidableEq

inductive SDir : Type where
  | mk : List Nat → List SFile → List SDir → SDir

def SDir.name : SDir → List Nat
  | .mk n _ _ => n

def SDir.files : SDir → List SFile
  | .mk _ f _ => f

def SDir.subdirs : SDir → List SDir
  | .mk _ _ s => s

/-- Number of directory nodes in a mirror tree (used as parser fuel). -/
def SDir.nodes : SDir → Nat
  | .mk _ _ ss => (ss.attach.map (fun x => SDir.nodes x.1)).sum + 1
termination_by d => sizeOf d
decreasing_by
  have h := List.sizeOf_lt_of_mem x.2
  simp only [SDir.mk.sizeOf_spec]
  omega

/-- Nesting depth of a mirror tree (used as encoder fuel). -/
def SDir.depth : SDir → Nat
  | .mk _ _ ss => (ss.attach.map (fun x => SDir.depth x.1)).foldr max 0 + 1
termination_by d => sizeOf d
decreasing_by
  have h := List.sizeOf_lt_of_mem x.2
  simp only [SDir.mk.sizeOf_spec]
  omega

theorem SDir.nodes_mk (n : List Nat) (fs : List SFile) (ss : List SDir) :
    (SDir.mk n fs ss).nodes = (ss.map SDir.nodes).sum + 1 := by
  rw [SDir.nodes, List.attach_map_val]

theorem SDir.depth_mk (n : List Nat) (fs : List SFile) (ss : List SDir) :
    (SDir.mk n fs ss).depth = (ss.map SDir.depth).foldr max 0 + 1 := by
  rw [SDir.depth, List.attach_map_val]

theorem le_foldr_max_of_mem {l : List Nat} {x : Nat} (h : x ∈ l) : x ≤ l.foldr max 0 := by
  induction l with
  | nil => cases h
  | cons a l ih =>
    rcases List.mem_cons.mp h with rfl | h
    · exact le_max_left _ _
    · exact le_trans (ih h) (le_max_right _ _)


theorem SDir.nodes_pos (t : SDir) : 1 ≤ t.nodes := by
  cases t with
  | mk n fs ss => rw [SDir.nodes_mk]; omega

theorem SDir.nodes_lt_of_mem {c : SDir} {n : List Nat} {fs : List SFile} {ss : List SDir}
    (h : c ∈ ss) : c.nodes < (SDir.mk n fs ss).nodes := by
  rw [SDir.nodes_mk]
  have : c.nodes ≤ (ss.map SDir.nodes).sum :=
    List.single_le_sum (fun x _ => Nat.zero_le x) _ (List.mem_map_of_mem SDir.nodes h)
  omega

theorem SDir.depth_lt_of_mem {c : SDir} {n : List Nat} {fs : List SFile} {ss : List SDir}
    (h : c ∈ ss) : c.depth < (SDir.mk n fs ss).depth := by
  rw [SDir.depth_mk]
  have : c.depth ≤ (ss.map SDir.depth).foldr max 0 :=
    le_foldr_max_of_mem (List.mem_map_of_mem SDir.depth h)
  omega

/-- Structural induction on a mirror tree through the list of subdirectories. -/
def SDir.recMem {motive : SDir → Prop}
    (h : ∀ n fs ss, (∀ d ∈ ss, motive d) → motive (SDir.mk n fs ss)) :
    ∀ t, motive t
  | .mk n fs ss => h n fs ss (fun d hmem => SDir.recMem h d)
termination_by t => sizeOf t
decreasing_by
  have h2 := List.sizeOf_lt_of_mem hmem
  simp only [SDir.mk.sizeOf_spec]
  omega

/-! ## The postcard codec for the mirror structure

`postcard::to_allocvec(&snapshot)` / `postcard::from_bytes(payload)` in
`persist.rs` lines 53 and 108.  The wire format is: a struct is its fields in
order; a `String` or `Vec<u8>` is a varint length followed by the raw bytes; a
`Vec<T>` is a varint count followed by the encoded elements.  The encoder
recursion over the tree is made structural over a fuel argument (via `Nat.rec`)
and `encodeSDir` instantiates the fuel with the tree's depth, which is always
sufficient. -/

/-- postcard encoding of an `SFile`: name then content, both length-prefixed. -/
def encodeSFile (f : SFile) : List Nat :=
  encodeBytes f.name ++ encodeBytes f.content

/-- Fuel-indexed postcard encoder for `SDir`. -/
def encodeSDirF (fuel : Nat) : SDir → List Nat :=
  Nat.rec (motive := fun _ => SDir → List Nat)
    (fun _ => [])
    (fun _ ih d =>
      encodeBytes d.name
        ++ encodeVarint d.files.length ++ (d.files.map encodeSFile).flatten
        ++ encodeVarint d.subdirs.length ++ (d.subdirs.map ih).flatten)
    fuel

theorem encodeSDirF_succ (fuel : Nat) (d : SDir) :
    encodeSDirF (fuel + 1) d =
      encodeBytes d.name
        ++ encodeVarint d.files.length ++ (d.files.map encodeSFile).flatten
        ++ encodeVarint d.subdirs.length ++ (d.subdirs.map (encodeSDirF fuel)).flatten := rfl

/-- postcard encoding of an `SDir` (`postcard::to_allocvec`): the fuel is
instantiated with the tree's depth, which is always sufficient. -/
def encodeSDir (t : SDir) : List Nat :=
  encodeSDirF t.depth t

theorem encodeSDirF_irrel :
    ∀ t f₁ f₂, t.depth ≤ f₁ → t.depth ≤ f₂ → encodeSDirF f₁ t = encodeSDirF f₂ t := by
  intro t
  induction t using SDir.recMem with
  | h n fs ss ih =>
    intro f₁ f₂ h₁ h₂
    have hd : 1 ≤ (SDir.mk n fs ss).depth := by rw [SDir.depth_mk]; omega
    obtain ⟨g₁, rfl⟩ : ∃ g, f₁ = g + 1 := ⟨f₁ - 1, by omega⟩
    obtain ⟨g₂, rfl⟩ : ∃ g, f₂ = g + 1 := ⟨f₂ - 1, by omega⟩
    rw [encodeSDirF_succ, encodeSDirF_succ]
    have hsub : ∀ d ∈ ss, encodeSDirF g₁ d = encodeSDirF g₂ d := by
      intro d hd'
      have := @SDir.depth_lt_of_mem _ n fs _ hd'
      exact ih d hd' g₁ g₂ (by omega) (by omega)
    simp only [SDir.name, SDir.files, SDir.subdirs]
    rw [List.map_congr_left hsub]

theorem encodeSDirF_eq_encodeSDir {t : SDir} {fuel : Nat} (h : t.depth ≤ fuel) :
    encodeSDirF fuel t = encodeSDir t :=
  encodeSDirF_irrel t fuel t.depth h le_rfl

/-- Canonical one-step unfolding of `encodeSDir` at a constructor. -/
theorem encodeSDir_mk (n : List Nat) (fs : List SFile) (ss : List SDir) :
    encodeSDir (SDir.mk n fs ss) =
      encodeBytes n
        ++ encodeVarint fs.length ++ (fs.map encodeSFile).flatten
        ++ encodeVarint ss.length ++ (ss.map encodeSDir).flatten := by
  have hsub : ∀ d ∈ ss, encodeSDirF ((ss.map SDir.depth).foldr max 0) d = encodeSDir d := by
    intro d hd
    apply encodeSDirF_eq_encodeSDir
    have := @SDir.depth_lt_of_mem _ n fs _ hd
    rw [SDir.depth_mk] at this
    omega
  rw [encodeSDir, SDir.depth_mk, encodeSDirF_succ]
  simp only [SDir.name, SDir.files, SDir.subdirs]
  rw [List.map_congr_left hsub]

/-- Parse exactly `n` consecutive items with the element parser `p`. -/
def parseN {α : Type} (p : List Nat → Option (α × List Nat)) :
    Nat → List Nat → Option (List α × List Nat)
  | 0, input => some ([], input)
  | n + 1, input =>
    match p input with
    | none => none
    | some (a, rest) =>
      match parseN p n rest with
      | none => none
      | some (as, r) => some (a :: as, r)

/-- postcard decoder for an `SFile`. -/
def decodeSFile (input : List Nat) : Option (SFile × List Nat) :=
  match decodeBytes input with
  | none => none
  | some (name, r1) =>
    match decodeBytes r1 with
    | none => none
    | some (content, r2) => some (⟨name, content⟩, r2)

/-- One layer of the postcard decoder for `SDir`, abstracted over the decoder
used for the nested subdirectories. -/
def decodeSDirStep (pd : List Nat → Option (SDir × List Nat)) (input : List Nat) :
    Option (SDir × List Nat) :=
  match decodeBytes input with
  | none => none
  | some (name, r1) =>
    match decodeVarint r1 with
    | none => none
    | some (nf, r2) =>
      match parseN decodeSFile nf r2 with
      | none => none
      | some (files, r3) =>
        match decodeVarint r3 with
        | none => none
        | some (nd, r4) =>
          match parseN pd nd r4 with
          | none => none
          | some (subdirs, r5) => some (.mk name files subdirs, r5)

/-- Fuel-indexed postcard decoder for `SDir`. -/
def decodeSDirF : Nat → List Nat → Option (SDir × List Nat) :=
  Nat.rec (motive := fun _ => List Nat → Option (SDir × List Nat))
    (fun _ => none)
    (fun _ ih => decodeSDirStep ih)

theorem decodeSDirF_succ (fuel : Nat) :
    decodeSDirF (fuel + 1) = decodeSDirStep (decodeSDirF fuel) := rfl

/-- postcard decoding of an `SDir` from a byte slice (`postcard::from_bytes`):
any bytes left over after the value are discarded, as `postcard::from_bytes`
does.  Fuel `input.length + 1` always suffices because every directory node of
a parseable encoding consumes at least one byte. -/
def decodeSDir (input : List Nat) : Option SDir :=
  match decodeSDirF (input.length + 1) input with
  | none => none
  | some (t, _) => some t

theorem parseN_roundtrip {α : Type} (p : List Nat → Option (α × List Nat))
    (enc : α → List Nat) :
    ∀ (as : List α) (rest : List Nat),
      (∀ a ∈ as, ∀ r, p (enc a ++ r) = some (a, r)) →
      parseN p as.length ((as.map enc).flatten ++ rest) = some (as, rest) := by
  intro as
  induction as with
  | nil => intro rest _; simp [parseN]
  | cons a as ih =>
    intro rest h
    simp only [List.map_cons, List.flatten_cons, List.length_cons, List.append_assoc, parseN]
    rw [h a (List.mem_cons_self a as) _]
    simp only [ih rest (fun a ha r => h a (List.mem_cons_of_mem _ ha) r)]

theorem decodeSFile_encodeSFile (f : SFile) (rest : List Nat) :
    decodeSFile (encodeSFile f ++ rest) = some (f, rest) := by
  simp [encodeSFile, decodeSFile, List.append_assoc, decodeBytes_encodeBytes]

theorem decodeSDirF_encodeSDir :
    ∀ (fuel : Nat) (t : SDir) (rest : List Nat), t.nodes ≤ fuel →
      decodeSDirF fuel (encodeSDir t ++ rest) = some (t, rest) := by
  intro fuel
  induction fuel with
  | zero =>
    intro t rest h
    have := SDir.nodes_pos t
    omega
  | succ f ih =>
    intro t rest h
    cases t with
    | mk n fs ss =>
      rw [decodeSDirF_succ, encodeSDir_mk]
      have hnodes : (ss.map SDir.nodes).sum ≤ f := by
        rw [SDir.nodes_mk] at h; omega
      simp only [decodeSDirStep, List.append_assoc, decodeBytes_encodeBytes,
        decodeVarint_encodeVarint]
      rw [parseN_roundtrip decodeSFile encodeSFile fs _
        (fun a _ r => decodeSFile_encodeSFile a r)]
      simp only [decodeVarint_encodeVarint]
      rw [parseN_roundtrip (decodeSDirF f) encodeSDir ss rest ?_]
      intro d hd r
      apply ih d r
      have hle : d.nodes ≤ (ss.map SDir.nodes).sum :=
        List.single_le_sum (fun x _ => Nat.zero_le x) _ (List.mem_map_of_mem SDir.nodes hd)
      omega

theorem nodes_le_length_encodeSDir : ∀ t : SDir, t.nodes ≤ (encodeSDir t).length := by
  intro t
  induction t using SDir.recMem with
  | h n fs ss ih =>
    rw [SDir.nodes_mk, encodeSDir_mk]
    simp only [List.length_append, List.length_flatten]
    have h1 : 1 ≤ (encodeBytes n).length := by
      simp only [encodeBytes, List.length_append]
      have := length_encodeVarint_pos n.length
      omega
    have h2 : (ss.map SDir.nodes).sum ≤ (List.map List.length (ss.map encodeSDir)).sum := by
      rw [List.map_map]
      apply List.sum_le_sum
      intro d hd
      exact ih d hd
    omega

/-- Full codec round-trip on the mirror structure: decoding the encoding of any
tree recovers the tree exactly. -/
theorem decodeSDir_encodeSDir (t : SDir) : decodeSDir (encodeSDir t) = some t := by
  have h : decodeSDirF ((encodeSDir t).length + 1) (encodeSDir t ++ []) = some (t, []) :=
    decodeSDirF_encodeSDir _ t [] (by have := nodes_le_length_encodeSDir t; omega)
  rw [List.append_nil] at h
  rw [decodeSDir, h]

/-! ## The live directory tree (`Directory` / `File`)

`src/fs/file.rs` and `src/fs/dir.rs`.  A `Directory` holds two `BTreeMap`s
keyed by `&'static str`; a `BTreeMap` is modelled as an association list that
is kept strictly sorted by key under the lexicographic byte order of the key
strings, which is exactly `BTreeMap`'s iteration order and one-value-per-key
semantics. -/

/-- `File`: a name and raw byte content. -/
structure FileM where
  name : List Nat
  content : List Nat
deriving DecidableEq

/-- `File::new`: empty content. -/
def FileM.new (n : List Nat) : FileM :=
  ⟨n, []⟩

/-- `File::write`: appends to the content. -/
def FileM.write (f : FileM) (data : List Nat) : FileM :=
  ⟨f.name, f.content ++ data⟩

/-- Strict lexicographic order on names (byte sequences): the `Ord` instance of
Rust `&str` used by the `BTreeMap` keys. -/
def keyLt : List Nat → List Nat → Bool
  | [], [] => false
  | [], _ :: _ => true
  | _ :: _, [] => false
  | a :: as, b :: bs => if a < b then true else if b < a then false else keyLt as bs

theorem keyLt_irrefl : ∀ a, keyLt a a = false := by
  intro a
  induction a with
  | nil => rfl
  | cons x xs ih => simp [keyLt, ih]

theorem keyLt_asymm : ∀ a b, keyLt a b = true → keyLt b a = false := by
  intro a
  induction a with
  | nil =>
    intro b h
    cases b with
    | nil => simp [keyLt] at h
    | cons y ys => rfl
  | cons x xs ih =>
    intro b h
    cases b with
    | nil => simp [keyLt] at h
    | cons y ys =>
      simp only [keyLt] at h ⊢
      by_cases h1 : x < y
      · simp [h1, show ¬ y < x by omega]
      · by_cases h2 : y < x
        · simp [h1, h2] at h
        · simp only [h1, h2, if_false] at h ⊢
          exact ih ys h

theorem keyLt_conn : ∀ a b, keyLt a b = false → keyLt b a = false → a = b := by
  intro a
  induction a with
  | nil =>
    intro b h1 h2
    cases b with
    | nil => rfl
    | cons y ys => simp [keyLt] at h1
  | cons x xs ih =>
    intro b h1 h2
    cases b with
    | nil => simp [keyLt] at h2
    | cons y ys =>
      simp only [keyLt] at h1 h2
      by_cases hxy : x < y
      · simp [hxy] at h1
      · by_cases hyx : y < x
        · simp [hyx, hxy] at h2
        · have hx : x = y := by omega
          subst hx
          simp only [hxy, hyx, if_false] at h1 h2
          rw [ih ys h1 h2]

theorem keyLt_trans : ∀ a b c, keyLt a b = true → keyLt b c = true → keyLt a c = true := by
  intro a
  induction a with
  | nil =>
    intro b c h1 h2
    cases b with
    | nil => simp [keyLt] at h1
    | cons y ys =>
      cases c with
      | nil => simp [keyLt] at h2
      | cons z zs => rfl
  | cons x xs ih =>
    intro b c h1 h2
    cases b with
    | nil => simp [keyLt] at h1
    | cons y ys =>
      cases c with
      | nil => simp [keyLt] at h2
      | cons z zs =>
        simp only [keyLt] at h1 h2 ⊢
        by_cases hxy : x < y
        · by_cases hyz : y < z
          · simp [show x < z by omega]
          · by_cases hzy : z < y
            · simp [hzy, hyz] at h2
            · have hy : y = z := by omega
              subst hy
              simp [hxy]
        · by_cases hyx : y < x
          · simp [hxy, hyx] at h1
          · have hx : x = y := by omega
            subst hx
            simp only [hxy, hyx, if_false] at h1
            by_cases hxz : x < z
            · simp [hxz]
            · by_cases hzx : z < x
              · simp [hxz, hzx] at h2
              · have hz : x = z := by omega
                subst hz
                simp only [hxz, hzx, if_false] at h2 ⊢
                exact ih ys zs h1 h2

/-- A `Directory`: name, file map, subdirectory map. -/
inductive DirM : Type where
  | mk : List Nat → List (List Nat × FileM) → List (List Nat × DirM) → DirM

def DirM.name : DirM → List Nat
  | .mk n _ _ => n

def DirM.files : DirM → List (List Nat × FileM)
  | .mk _ f _ => f

def DirM.subdirs : DirM → List (List Nat × DirM)
  | .mk _ _ s => s

/-- `Directory::new`: empty maps. -/
def DirM.new (n : List Nat) : DirM :=
  .mk n [] []

/-- `BTreeMap::insert` on a sorted association list: replace the value if the
key is already present, otherwise insert at the sorted position. -/
def insertB {α : Type} (k : List Nat) (v : α) : List (List Nat × α) → List (List Nat × α)
  | [] => [(k, v)]
  | (k', v') :: rest =>
    if keyLt k k' then (k, v) :: (k', v') :: rest
    else if keyLt k' k then (k', v') :: insertB k v rest
    else (k, v) :: rest

/-- `BTreeMap::remove` on an association list. -/
def removeB {α : Type} (k : List Nat) : List (List Nat × α) → List (List Nat × α)
  | [] => []
  | (k', v') :: rest => if k = k' then rest else (k', v') :: removeB k rest

/-- `BTreeMap::get` on an association list. -/
def lookupB {α : Type} (k : List Nat) : List (List Nat × α) → Option α
  | [] => none
  | (k', v') :: rest => if k = k' then some v' else lookupB k rest

/-- `Directory::add_file`: inserts under the key `file.name`. -/
def DirM.add_file (d : DirM) (f : FileM) : DirM :=
  .mk d.name (insertB f.name f d.files) d.subdirs

/-- `Directory::add_subdir`: inserts under the key `dir.name`. -/
def DirM.add_subdir (d : DirM) (sd : DirM) : DirM :=
  .mk d.name d.files (insertB sd.name sd d.subdirs)

/-- `Directory::remove_file`ʼs effect on the map. -/
def DirM.remove_file (d : DirM) (n : List Nat) : DirM :=
  .mk d.name (removeB n d.files) d.subdirs

/-- `Directory::remove_subdir`ʼs effect on the map. -/
def DirM.remove_subdir (d : DirM) (n : List Nat) : DirM :=
  .mk d.name d.files (removeB n d.subdirs)

/-- A map is sorted: keys strictly increasing in `keyLt`. -/
def sortedKeys {α : Type} (l : List (List Nat × α)) : Prop :=
  l.Pairwise (fun p q => keyLt p.1 q.1 = true)

theorem mem_insertB {α : Type} {k : List Nat} {v : α} :
    ∀ {l : List (List Nat × α)} {x}, x ∈ insertB k v l → x = (k, v) ∨ x ∈ l := by
  intro l
  induction l with
  | nil =>
    intro x hx
    simp [insertB] at hx
    exact Or.inl hx
  | cons p rest ih =>
    intro x hx
    obtain ⟨k', v'⟩ := p
    simp only [insertB] at hx
    by_cases h1 : keyLt k k' = true
    · simp only [h1, if_true] at hx
      rcases List.mem_cons.mp hx with rfl | hx
      · exact Or.inl rfl
      · exact Or.inr hx
    · simp only [h1, if_false] at hx
      by_cases h2 : keyLt k' k = true
      · simp only [h2, if_true] at hx
        rcases List.mem_cons.mp hx with rfl | hx
        · exact Or.inr (List.mem_cons_self _ _)
        · rcases ih hx with h | h
          · exact Or.inl h
          · exact Or.inr (List.mem_cons_of_mem _ h)
      · simp only [h2, if_false] at hx
        rcases List.mem_cons.mp hx with rfl | hx
        · exact Or.inl rfl
        · exact Or.inr (List.mem_cons_of_mem _ hx)

theorem bool_eq_false {b : Bool} (h : ¬ b = true) : b = false := by
  cases b
  · rfl
  · exact absurd rfl h

theorem sorted_insertB {α : Type} {k : List Nat} {v : α} :
    ∀ {l : List (List Nat × α)}, sortedKeys l → sortedKeys (insertB k v l) := by
  intro l
  induction l with
  | nil =>
    intro _
    simp [insertB, sortedKeys]
  | cons p rest ih =>
    intro hs
    obtain ⟨k', v'⟩ := p
    rw [sortedKeys, List.pairwise_cons] at hs
    obtain ⟨hhead, htail⟩ := hs
    simp only [insertB]
    by_cases h1 : keyLt k k' = true
    · simp only [h1, if_true, sortedKeys, List.pairwise_cons]
      refine ⟨?_, hhead, htail⟩
      intro q hq
      rcases List.mem_cons.mp hq with rfl | hq
      · exact h1
      · exact keyLt_trans _ _ _ h1 (hhead q hq)
    · rw [if_neg h1]
      by_cases h2 : keyLt k' k = true
      · rw [if_pos h2]
        simp only [sortedKeys, List.pairwise_cons]
        refine ⟨?_, ih htail⟩
        intro q hq
        rcases mem_insertB hq with rfl | hq
        · exact h2
        · exact hhead q hq
      · rw [if_neg h2]
        have hk : k = k' := keyLt_conn k k' (bool_eq_false h1) (bool_eq_false h2)
        subst hk
        simp only [sortedKeys, List.pairwise_cons]
        exact ⟨hhead, htail⟩

theorem removeB_sublist {α : Type} (k : List Nat) :
    ∀ l : List (List Nat × α), (removeB k l).Sublist l := by
  intro l
  induction l with
  | nil => simp [removeB]
  | cons p rest ih =>
    obtain ⟨k', v'⟩ := p
    simp only [removeB]
    by_cases h : k = k'
    · simp only [h, if_true]
      exact List.sublist_cons_self _ _
    · simp only [h, if_false]
      exact List.Sublist.cons₂ _ ih

theorem sorted_removeB {α : Type} {k : List Nat} {l : List (List Nat × α)}
    (hs : sortedKeys l) : sortedKeys (removeB k l) :=
  List.Pairwise.sublist (removeB_sublist k l) hs

theorem keys_insertB_of_mem {α : Type} {k : List Nat} {v : α} :
    ∀ {l : List (List Nat × α)}, sortedKeys l → k ∈ l.map Prod.fst →
      (insertB k v l).map Prod.fst = l.map Prod.fst := by
  intro l
  induction l with
  | nil => intro _ hm; simp at hm
  | cons p rest ih =>
    intro hs hm
    obtain ⟨k', v'⟩ := p
    rw [sortedKeys, List.pairwise_cons] at hs
    obtain ⟨hhead, htail⟩ := hs
    simp only [insertB]
    by_cases h1 : keyLt k k' = true
    · exfalso
      simp only [List.map_cons, List.mem_cons] at hm
      rcases hm with rfl | hm
      · rw [keyLt_irrefl] at h1; exact Bool.false_ne_true h1
      · obtain ⟨q, hq, rfl⟩ := List.mem_map.mp hm
        have := keyLt_trans _ _ _ h1 (hhead q hq)
        rw [keyLt_irrefl] at this
        exact Bool.false_ne_true this
    · rw [if_neg h1]
      by_cases h2 : keyLt k' k = true
      · have hne : k ≠ k' := by
          intro h; subst h; rw [keyLt_irrefl] at h2; exact Bool.false_ne_true h2
        simp only [List.map_cons, List.mem_cons] at hm
        rcases hm with h | hm
        · exact absurd h hne
        · rw [if_pos h2]
          simp only [List.map_cons]
          rw [ih htail hm]
      · have hk : k = k' := keyLt_conn k k' (bool_eq_false h1) (bool_eq_false h2)
        subst hk
        rw [if_neg h2]
        simp only [List.map_cons]

theorem lookupB_insertB_self {α : Type} (k : List Nat) (v : α) :
    ∀ l : List (List Nat × α), lookupB k (insertB k v l) = some v := by
  intro l
  induction l with
  | nil => simp [insertB, lookupB]
  | cons p rest ih =>
    obtain ⟨k', v'⟩ := p
    simp only [insertB]
    by_cases h1 : keyLt k k' = true
    · rw [if_pos h1]
      simp [lookupB]
    · rw [if_neg h1]
      by_cases h2 : keyLt k' k = true
      · have hne : k ≠ k' := by
          intro h; subst h; rw [keyLt_irrefl] at h2; exact Bool.false_ne_true h2
        rw [if_pos h2]
        simp only [lookupB, hne, if_false]
        exact ih
      · rw [if_neg h2]
        simp [lookupB]

theorem countP_key_le_one {α : Type} (nm : List Nat) :
    ∀ {l : List (List Nat × α)}, sortedKeys l →
      l.countP (fun p => p.1 == nm) ≤ 1 := by
  intro l
  induction l with
  | nil => intro _; simp
  | cons p rest ih =>
    intro hs
    obtain ⟨k', v'⟩ := p
    rw [sortedKeys, List.pairwise_cons] at hs
    obtain ⟨hhead, htail⟩ := hs
    rw [List.countP_cons]
    by_cases h : k' = nm
    · subst h
      have hz : rest.countP (fun p => p.1 == k') = 0 := by
        rw [List.countP_eq_zero]
        intro q hq
        have hlt := hhead q hq
        simp only [beq_iff_eq]
        intro hqe
        rw [hqe, keyLt_irrefl] at hlt
        exact Bool.false_ne_true hlt
      simp [hz]
    · have hb : ((k', v').1 == nm) = false := by simp [h]
      simp only [hb, Bool.false_eq_true, if_false, Nat.add_zero]
      exact ih htail

@[simp] theorem DirM.name_mk (n : List Nat) (fs : List (List Nat × FileM))
    (ss : List (List Nat × DirM)) : (DirM.mk n fs ss).name = n := rfl

@[simp] theorem DirM.files_mk (n : List Nat) (fs : List (List Nat × FileM))
    (ss : List (List Nat × DirM)) : (DirM.mk n fs ss).files = fs := rfl

@[simp] theorem DirM.subdirs_mk (n : List Nat) (fs : List (List Nat × FileM))
    (ss : List (List Nat × DirM)) : (DirM.mk n fs ss).subdirs = ss := rfl

/-! ## Directory operations (for the per-directory map invariant) -/

/-- The mutating operations collaborators invoke against one directory. -/
inductive DirOp : Type where
  | addFile (f : FileM)
  | addSubdir (d : DirM)
  | removeFile (n : List Nat)
  | removeSubdir (n : List Nat)

def applyOp (d : DirM) : DirOp → DirM
  | .addFile f => d.add_file f
  | .addSubdir sd => d.add_subdir sd
  | .removeFile n => d.remove_file n
  | .removeSubdir n => d.remove_subdir n

def applyOps (d : DirM) (ops : List DirOp) : DirM :=
  ops.foldl applyOp d

/-- Invariant: both maps of a directory are strictly sorted by key. -/
def goodMaps (d : DirM) : Prop :=
  sortedKeys d.files ∧ sortedKeys d.subdirs

theorem goodMaps_applyOp {d : DirM} (h : goodMaps d) (op : DirOp) :
    goodMaps (applyOp d op) := by
  obtain ⟨hf, hs⟩ := h
  cases op with
  | addFile f => exact ⟨sorted_insertB hf, hs⟩
  | addSubdir sd => exact ⟨hf, sorted_insertB hs⟩
  | removeFile n => exact ⟨sorted_removeB hf, hs⟩
  | removeSubdir n => exact ⟨hf, sorted_removeB hs⟩

theorem goodMaps_applyOps : ∀ (ops : List DirOp) (d : DirM), goodMaps d →
    goodMaps (applyOps d ops) := by
  intro ops
  induction ops with
  | nil => intro d h; exact h
  | cons op ops ih =>
    intro d h
    exact ih _ (goodMaps_applyOp h op)

/-! ## Conversions between the live tree and the mirror structure

`to_serializable` / `from_serializable`, `persist.rs` lines 24–48. -/

/-- Nesting depth of a live tree. -/
def DirM.depth : DirM → Nat
  | .mk _ _ ss => (ss.attach.map (fun x => DirM.depth x.1.2)).foldr max 0 + 1
termination_by d => sizeOf d
decreasing_by
  obtain ⟨⟨a, b⟩, hx⟩ := x
  have h1 := List.sizeOf_lt_of_mem hx
  simp only [DirM.mk.sizeOf_spec, Prod.mk.sizeOf_spec] at *
  omega

/-- Structural induction on a live tree through the subdirectory map. -/
def DirM.recMem {motive : DirM → Prop}
    (h : ∀ n fs ss, (∀ kv ∈ ss, motive kv.2) → motive (DirM.mk n fs ss)) :
    ∀ t, motive t
  | .mk n fs ss => h n fs ss (fun kv hmem => DirM.recMem h kv.2)
termination_by t => sizeOf t
decreasing_by
  obtain ⟨a, b⟩ := kv
  have h1 := List.sizeOf_lt_of_mem hmem
  simp only [DirM.mk.sizeOf_spec, Prod.mk.sizeOf_spec] at *
  omega

theorem DirM.depth_mk_live (n : List Nat) (fs : List (List Nat × FileM))
    (ss : List (List Nat × DirM)) :
    (DirM.mk n fs ss).depth = (ss.map (fun kv => kv.2.depth)).foldr max 0 + 1 := by
  rw [DirM.depth, List.attach_map_val ss (fun kv => kv.2.depth)]

theorem DirM.depth_lt_of_mem_live {kv : List Nat × DirM} {n : List Nat}
    {fs : List (List Nat × FileM)} {ss : List (List Nat × DirM)}
    (h : kv ∈ ss) : kv.2.depth < (DirM.mk n fs ss).depth := by
  rw [DirM.depth_mk_live]
  have : kv.2.depth ≤ (ss.map (fun kv => kv.2.depth)).foldr max 0 :=
    le_foldr_max_of_mem (List.mem_map_of_mem _ h)
  omega

/-- Fuel-indexed version of `to_serializable`: walk the directory, mirroring
each file map entry as an `SFile` and each subdirectory map entry recursively,
in map (= sorted key) order. -/
def toSerF (fuel : Nat) : DirM → SDir :=
  Nat.rec (motive := fun _ => DirM → SDir)
    (fun d => SDir.mk d.name (d.files.map (fun kv => SFile.mk kv.2.name kv.2.content)) [])
    (fun _ ih d =>
      SDir.mk d.name (d.files.map (fun kv => SFile.mk kv.2.name kv.2.content))
        (d.subdirs.map (fun kv => ih kv.2)))
    fuel

theorem toSerF_succ (fuel : Nat) (d : DirM) :
    toSerF (fuel + 1) d =
      SDir.mk d.name (d.files.map (fun kv => SFile.mk kv.2.name kv.2.content))
        (d.subdirs.map (fun kv => toSerF fuel kv.2)) := rfl

/-- `to_serializable` (`persist.rs` lines 24–34). -/
def to_serializable (d : DirM) : SDir :=
  toSerF d.depth d

theorem toSerF_irrel :
    ∀ (d : DirM) (f₁ f₂ : Nat), d.depth ≤ f₁ → d.depth ≤ f₂ → toSerF f₁ d = toSerF f₂ d := by
  intro d
  induction d using DirM.recMem with
  | h n fs ss ih =>
    intro f₁ f₂ h₁ h₂
    have hd : 1 ≤ (DirM.mk n fs ss).depth := by rw [DirM.depth_mk_live]; omega
    obtain ⟨g₁, rfl⟩ : ∃ g, f₁ = g + 1 := ⟨f₁ - 1, by omega⟩
    obtain ⟨g₂, rfl⟩ : ∃ g, f₂ = g + 1 := ⟨f₂ - 1, by omega⟩
    rw [toSerF_succ, toSerF_succ]
    simp only [DirM.subdirs_mk]
    have hsub : ∀ kv ∈ ss, toSerF g₁ kv.2 = toSerF g₂ kv.2 := by
      intro kv hkv
      have := @DirM.depth_lt_of_mem_live _ n fs _ hkv
      exact ih kv hkv g₁ g₂ (by omega) (by omega)
    rw [List.map_congr_left hsub]

theorem toSerF_eq_to_serializable {d : DirM} {fuel : Nat} (h : d.depth ≤ fuel) :
    toSerF fuel d = to_serializable d :=
  toSerF_irrel d fuel d.depth h le_rfl

theorem to_serializable_mk (n : List Nat) (fs : List (List Nat × FileM))
    (ss : List (List Nat × DirM)) :
    to_serializable (DirM.mk n fs ss) =
      SDir.mk n (fs.map (fun kv => SFile.mk kv.2.name kv.2.content))
        (ss.map (fun kv => to_serializable kv.2)) := by
  have hsub : ∀ kv ∈ ss,
      toSerF ((ss.map (fun kv => kv.2.depth)).foldr max 0) kv.2 = to_serializable kv.2 := by
    intro kv hkv
    apply toSerF_eq_to_serializable
    have := @DirM.depth_lt_of_mem_live _ n fs _ hkv
    rw [DirM.depth_mk_live] at this
    omega
  rw [to_serializable, DirM.depth_mk_live, toSerF_succ]
  simp only [DirM.name_mk, DirM.files_mk, DirM.subdirs_mk]
  rw [List.map_congr_left hsub]

/-- Fuel-indexed version of `from_serializable`: start from `Directory::new`,
`add_file` a `File::new`+`write` for every mirrored file, then `add_subdir`
every recursively rebuilt mirrored subdirectory. -/
def fromSerF (fuel : Nat) : SDir → DirM :=
  Nat.rec (motive := fun _ => SDir → DirM)
    (fun s =>
      s.files.foldl (fun d sf => d.add_file (FileM.write (FileM.new sf.name) sf.content))
        (DirM.new s.name))
    (fun _ ih s =>
      s.subdirs.foldl (fun d sd => d.add_subdir (ih sd))
        (s.files.foldl (fun d sf => d.add_file (FileM.write (FileM.new sf.name) sf.content))
          (DirM.new s.name)))
    fuel

theorem fromSerF_succ (fuel : Nat) (s : SDir) :
    fromSerF (fuel + 1) s =
      s.subdirs.foldl (fun d sd => d.add_subdir (fromSerF fuel sd))
        (s.files.foldl (fun d sf => d.add_file (FileM.write (FileM.new sf.name) sf.content))
          (DirM.new s.name)) := rfl

/-- `from_serializable` (`persist.rs` lines 36–48). -/
def from_serializable (s : SDir) : DirM :=
  fromSerF s.depth s

theorem foldl_congr_mem {α β : Type} :
    ∀ (l : List β) (f g : α → β → α) (a : α),
      (∀ x ∈ l, ∀ acc, f acc x = g acc x) → l.foldl f a = l.foldl g a := by
  intro l
  induction l with
  | nil => intro f g a h; rfl
  | cons x l ih =>
    intro f g a h
    simp only [List.foldl_cons]
    rw [h x (List.mem_cons_self x l) a]
    exact ih f g _ (fun y hy acc => h y (List.mem_cons_of_mem _ hy) acc)

theorem fromSerF_irrel :
    ∀ (s : SDir) (f₁ f₂ : Nat), s.depth ≤ f₁ → s.depth ≤ f₂ → fromSerF f₁ s = fromSerF f₂ s := by
  intro s
  induction s using SDir.recMem with
  | h n fs ss ih =>
    intro f₁ f₂ h₁ h₂
    have hd : 1 ≤ (SDir.mk n fs ss).depth := by rw [SDir.depth_mk]; omega
    obtain ⟨g₁, rfl⟩ : ∃ g, f₁ = g + 1 := ⟨f₁ - 1, by omega⟩
    obtain ⟨g₂, rfl⟩ : ∃ g, f₂ = g + 1 := ⟨f₂ - 1, by omega⟩
    rw [fromSerF_succ, fromSerF_succ]
    simp only [SDir.subdirs]
    apply foldl_congr_mem
    intro sd hsd acc
    have := @SDir.depth_lt_of_mem _ n fs _ hsd
    rw [ih sd hsd g₁ g₂ (by omega) (by omega)]

theorem fromSerF_eq_from_serializable {s : SDir} {fuel : Nat} (h : s.depth ≤ fuel) :
    fromSerF fuel s = from_serializable s :=
  fromSerF_irrel s fuel s.depth h le_rfl

theorem from_serializable_mk (n : List Nat) (fs : List SFile) (ss : List SDir) :
    from_serializable (SDir.mk n fs ss) =
      ss.foldl (fun d sd => d.add_subdir (from_serializable sd))
        (fs.foldl (fun d sf => d.add_file (FileM.write (FileM.new sf.name) sf.content))
          (DirM.new n)) := by
  rw [from_serializable, SDir.depth_mk, fromSerF_succ]
  simp only [SDir.name, SDir.files, SDir.subdirs]
  apply foldl_congr_mem
  intro sd hsd acc
  rw [fromSerF_eq_from_serializable]
  have := @SDir.depth_lt_of_mem _ n fs _ hsd
  rw [SDir.depth_mk] at this
  omega

/-- Well-formedness of a live tree: every key of either map equals the `name`
of the stored value, both maps are sorted, recursively.  Every tree built by
the program's `Directory` operations satisfies this. -/
inductive WFdir : DirM → Prop where
  | mk : ∀ n fs ss,
      sortedKeys fs →
      (∀ kv ∈ fs, kv.1 = kv.2.name) →
      sortedKeys ss →
      (∀ kv ∈ ss, kv.1 = kv.2.name) →
      (∀ kv ∈ ss, WFdir kv.2) →
      WFdir (DirM.mk n fs ss)

theorem insertB_append_gt {α : Type} :
    ∀ (acc : List (List Nat × α)) (k : List Nat) (v : α),
      (∀ p ∈ acc, keyLt p.1 k = true) → insertB k v acc = acc ++ [(k, v)] := by
  intro acc
  induction acc with
  | nil => intro k v h; rfl
  | cons p rest ih =>
    intro k v h
    obtain ⟨k', v'⟩ := p
    have hp : keyLt k' k = true := h (k', v') (List.mem_cons_self _ _)
    have hkk : ¬ keyLt k k' = true := by rw [keyLt_asymm _ _ hp]; exact Bool.false_ne_true
    simp only [insertB]
    rw [if_neg hkk, if_pos hp, ih k v (fun q hq => h q (List.mem_cons_of_mem _ hq))]
    rfl

theorem foldl_insertB_of_sorted {α : Type} :
    ∀ (l acc : List (List Nat × α)), sortedKeys (acc ++ l) →
      l.foldl (fun m kv => insertB kv.1 kv.2 m) acc = acc ++ l := by
  intro l
  induction l with
  | nil => intro acc h; simp
  | cons kv rest ih =>
    intro acc h
    simp only [List.foldl_cons]
    have hgt : ∀ p ∈ acc, keyLt p.1 kv.1 = true := by
      rw [sortedKeys, List.pairwise_append] at h
      intro p hp
      exact h.2.2 p hp kv (List.mem_cons_self _ _)
    rw [insertB_append_gt acc kv.1 kv.2 hgt]
    have h2 : sortedKeys ((acc ++ [kv]) ++ rest) := by
      rw [List.append_assoc, List.singleton_append]
      exact h
    rw [ih (acc ++ [kv]) h2]
    simp

theorem foldl_add_file_eq :
    ∀ (l : List (List Nat × FileM)) (d : DirM),
      (∀ kv ∈ l, kv.1 = kv.2.name) →
      l.foldl (fun d kv => d.add_file kv.2) d =
        DirM.mk d.name (l.foldl (fun m kv => insertB kv.1 kv.2 m) d.files) d.subdirs := by
  intro l
  induction l with
  | nil =>
    intro d h
    cases d
    rfl
  | cons kv rest ih =>
    intro d h
    simp only [List.foldl_cons]
    rw [ih _ (fun q hq => h q (List.mem_cons_of_mem _ hq))]
    have hk : kv.1 = kv.2.name := h kv (List.mem_cons_self _ _)
    simp [DirM.add_file, hk]

theorem foldl_add_subdir_eq :
    ∀ (l : List (List Nat × DirM)) (d : DirM),
      (∀ kv ∈ l, kv.1 = kv.2.name) →
      l.foldl (fun d kv => d.add_subdir kv.2) d =
        DirM.mk d.name d.files (l.foldl (fun m kv => insertB kv.1 kv.2 m) d.subdirs) := by
  intro l
  induction l with
  | nil =>
    intro d h
    cases d
    rfl
  | cons kv rest ih =>
    intro d h
    simp only [List.foldl_cons]
    rw [ih _ (fun q hq => h q (List.mem_cons_of_mem _ hq))]
    have hk : kv.1 = kv.2.name := h kv (List.mem_cons_self _ _)
    simp [DirM.add_subdir, hk]

/-- Rebuilding a well-formed live tree from its mirror recovers it exactly. -/
theorem from_to_serializable : ∀ {d : DirM}, WFdir d → from_serializable (to_serializable d) = d := by
  intro d
  induction d using DirM.recMem with
  | h n fs ss ih =>
    intro hwf
    cases hwf with
    | mk _ _ _ hfs hfn hss hsn hwfs =>
      rw [to_serializable_mk, from_serializable_mk]
      rw [List.foldl_map, List.foldl_map]
      have hfiles : ∀ kv ∈ fs, ∀ acc : DirM,
          acc.add_file (FileM.write (FileM.new (SFile.mk kv.2.name kv.2.content).name)
            (SFile.mk kv.2.name kv.2.content).content) = acc.add_file kv.2 := by
        intro kv hkv acc
        rfl
      rw [foldl_congr_mem _ _ _ _ hfiles]
      rw [foldl_add_file_eq fs (DirM.new n) hfn]
      rw [show (DirM.new n).name = n from rfl, show (DirM.new n).files = [] from rfl,
        show (DirM.new n).subdirs = [] from rfl]
      rw [show fs.foldl (fun m kv => insertB kv.1 kv.2 m) ([] : List (List Nat × FileM)) =
        [] ++ fs from foldl_insertB_of_sorted fs [] (by simpa [sortedKeys] using hfs)]
      rw [List.nil_append]
      have hsubs : ∀ kv ∈ ss, ∀ acc : DirM,
          acc.add_subdir (from_serializable (to_serializable kv.2)) = acc.add_subdir kv.2 := by
        intro kv hkv acc
        rw [ih kv hkv (hwfs kv hkv)]
      rw [foldl_congr_mem _ _ _ _ hsubs]
      rw [foldl_add_subdir_eq ss (DirM.mk n fs []) hsn]
      rw [show (DirM.mk n fs []).subdirs = [] from rfl]
      rw [show ss.foldl (fun m kv => insertB kv.1 kv.2 m) ([] : List (List Nat × DirM)) =
        [] ++ ss from foldl_insertB_of_sorted ss [] (by simpa [sortedKeys] using hss)]
      rfl

/-! ## The disk model and the persistence manager

`src/fs/persist.rs` lines 50–114.  The disk is byte-addressed; the driver
interface consumed by the persistence manager is `read_lba28`/`write_lba28`
over whole 512-byte sectors.  `lba` is a `u32` in the driver interface and in
`save`'s/`load`'s accumulating loop variable, so every use is reduced
`% 2^32`. -/

/-- Magic constant `0x4B46_5331` (`"KFS1"`), `persist.rs` line 12. -/
def MAGIC : Nat := 0x4B465331

/-- Fixed starting sector of the snapshot region, `persist.rs` line 13. -/
def START_LBA : Nat := 2048

/-- The disk, byte-addressed: address `lba * 512 + i` is byte `i` of sector
`lba`. -/
def Disk : Type := Nat → Nat

/-- Little-endian bytes of `n as u32` (`u32::to_le_bytes` together with the
truncation performed by an `as u32` cast). -/
def le4 (n : Nat) : List Nat :=
  [n % 256, n / 256 % 256, n / 65536 % 256, n / 16777216 % 256]

/-- `u32::from_le_bytes` of the first four entries of a byte list (the `% 256`
models the `u8` width of each entry; bytes read from the device are always
`< 256`). -/
def fromLE4 (l : List Nat) : Nat :=
  l.getD 0 0 % 256 + 256 * (l.getD 1 0 % 256) + 65536 * (l.getD 2 0 % 256)
    + 16777216 * (l.getD 3 0 % 256)

/-- Overwrite `buf.length` bytes starting at sector `lba`. -/
def diskWrite (d : Disk) (lba : Nat) (buf : List Nat) : Disk :=
  fun a => if lba * 512 ≤ a ∧ a < lba * 512 + buf.length then buf.getD (a - lba * 512) 0 else d a

/-- The bytes of `cnt` consecutive sectors starting at sector `lba`. -/
def diskReadBytes (d : Disk) (lba cnt : Nat) : List Nat :=
  (List.range' (lba * 512) (cnt * 512)).map d

/-- A fully functional driver read over a disk: always succeeds and returns
exactly the requested sectors (`read_lba28` on a present, healthy device). -/
def rdOf (d : Disk) : Nat → Nat → Option (List Nat) :=
  fun lba cnt => some (diskReadBytes d lba cnt)

/-- The `while written_sectors < sectors_total` loop of `save_to_disk`
(`persist.rs` lines 67–78), structural over a fuel argument: each driver write
covers `min 255 remaining` sectors, the target address advances by the chunk's
sector count (wrapping as a `u32`), and the written prefix of the buffer is
consumed.  Fuel `remaining` always suffices because every iteration writes at
least one sector. -/
def writeChunksF : Nat → Disk → List Nat → Nat → Nat → Disk
  | 0, d, _, _, _ => d
  | fuel + 1, d, buf, lba, remaining =>
    if remaining = 0 then d
    else
      writeChunksF fuel
        (diskWrite d (lba % 4294967296) (buf.take (min 255 remaining * 512)))
        (buf.drop (min 255 remaining * 512))
        (lba + min 255 remaining) (remaining - min 255 remaining)

def writeChunks (d : Disk) (buf : List Nat) (lba remaining : Nat) : Disk :=
  writeChunksF remaining d buf lba remaining

/-- The `(lba, sector_count)` arguments of the driver calls the ≤255-sector
chunk loop issues for `remaining` sectors starting at `lba` (common to the
write loop of `save` and the read loop of `load`). -/
def chunkCallsF : Nat → Nat → Nat → List (Nat × Nat)
  | 0, _, _ => []
  | fuel + 1, lba, remaining =>
    if remaining = 0 then []
    else (lba % 4294967296, min 255 remaining) ::
      chunkCallsF fuel (lba + min 255 remaining) (remaining - min 255 remaining)

def chunkCalls (lba remaining : Nat) : List (Nat × Nat) :=
  chunkCallsF remaining lba remaining

/-- The `while buf.len() % 512 != 0 { buf.push(0) }` padding loop of
`save_to_disk` (`persist.rs` line 65), structural over a fuel argument; at most
511 zero bytes are ever pushed, so fuel 512 always suffices. -/
def padToSectorF : Nat → List Nat → List Nat
  | 0, l => l
  | fuel + 1, l => if l.length % 512 = 0 then l else padToSectorF fuel (l ++ [0])

def padToSector (l : List Nat) : List Nat :=
  padToSectorF 512 l

/-- `save_to_disk` (`persist.rs` lines 50–82) on a working device: encode the
tree under the lock, frame it with `[MAGIC (u32 LE)][len as u32 LE]`, pad with
zeros to a sector multiple, and write the buffer in ≤255-sector chunks starting
at `START_LBA`.  Returns the disk after the writes. -/
def save_to_disk (t : DirM) (d : Disk) : Disk :=
  writeChunks d
    (padToSector (le4 MAGIC ++ le4 (encodeSDir (to_serializable t)).length
      ++ encodeSDir (to_serializable t)))
    START_LBA
    ((8 + (encodeSDir (to_serializable t)).length + 511) / 512)

/-- Events of one `save_to_disk` call, in program order.  The `ROOT_DIR.lock()`
guard is bound to a local (`persist.rs` line 51) and never dropped explicitly,
so by Rust scope-based drop semantics the tree lock is released only when the
function returns: the unlock event comes after every chunk write. -/
inductive SaveEv : Type where
  | lockTree
  | encode
  | drvWrite (lba cnt : Nat)
  | unlockTree
deriving DecidableEq

def saveEvents (t : DirM) : List SaveEv :=
  SaveEv.lockTree :: SaveEv.encode ::
    ((chunkCalls START_LBA ((8 + (encodeSDir (to_serializable t)).length + 511) / 512)).map
        (fun c => SaveEv.drvWrite c.1 c.2)
      ++ [SaveEv.unlockTree])

/-- Number of driver-write events issued while the tree lock is held, scanning
a trace with the given initial lock state. -/
def writesWhileLocked : List SaveEv → Bool → Nat
  | [], _ => 0
  | .lockTree :: rest, _ => writesWhileLocked rest true
  | .unlockTree :: rest, _ => writesWhileLocked rest false
  | .drvWrite _ _ :: rest, held => (if held then 1 else 0) + writesWhileLocked rest held
  | .encode :: rest, held => writesWhileLocked rest held

/-- Total number of driver-write events in a trace. -/
def countWrites : List SaveEv → Nat
  | [] => 0
  | .drvWrite _ _ :: rest => 1 + countWrites rest
  | _ :: rest => countWrites rest

/-- The `while read_so_far < sectors_total` loop of `load_from_disk`
(`persist.rs` lines 95–106), abstract over the driver read `rd`: reads
`remaining` sectors starting at `lba` in ≤255-sector chunks (note the loop
restarts at `START_LBA`, i.e. at the first sector of the region, not after the
header sector).  Returns the bytes (`none` as soon as a chunk read fails, in
which case the loop is abandoned) and the list of driver calls issued. -/
def readChunksF (rd : Nat → Nat → Option (List Nat)) :
    Nat → Nat → Nat → Option (List Nat) × List (Nat × Nat)
  | 0, _, _ => (some [], [])
  | fuel + 1, lba, remaining =>
    if remaining = 0 then (some [], [])
    else
      match rd (lba % 4294967296) (min 255 remaining) with
      | none => (none, [(lba % 4294967296, min 255 remaining)])
      | some bytes =>
        let r := readChunksF rd fuel (lba + min 255 remaining) (remaining - min 255 remaining)
        (r.1.map (fun tail => bytes ++ tail), (lba % 4294967296, min 255 remaining) :: r.2)

def readChunksAcc (rd : Nat → Nat → Option (List Nat)) (lba remaining : Nat) :
    Option (List Nat) × List (Nat × Nat) :=
  readChunksF rd remaining lba remaining

/-- Result of one `load_from_disk` call: the returned `Result`, the live tree
after the call, and the driver read calls issued. -/
structure LoadOut where
  res : Except Unit Unit
  root : DirM
  calls : List (Nat × Nat)

/-- `load_from_disk` (`persist.rs` lines 84–114), abstract over the driver
read: read one sector at `START_LBA`; check the magic; take the payload length
from bytes 4–8; read `(8 + len + 511) / 512` sectors starting again at
`START_LBA` in ≤255-sector chunks; slice bytes `8..8+len` and decode them; only
on full success replace the live root with the rebuilt tree. -/
def load_from_disk (rd : Nat → Nat → Option (List Nat)) (root : DirM) : LoadOut :=
  match rd START_LBA 1 with
  | none => ⟨.error (), root, [(START_LBA, 1)]⟩
  | some first =>
    if fromLE4 first ≠ MAGIC then ⟨.error (), root, [(START_LBA, 1)]⟩
    else
      match readChunksAcc rd START_LBA ((8 + fromLE4 (first.drop 4) + 511) / 512) with
      | (none, calls) => ⟨.error (), root, (START_LBA, 1) :: calls⟩
      | (some buf, calls) =>
        match decodeSDir ((buf.drop 8).take (fromLE4 (first.drop 4))) with
        | none => ⟨.error (), root, (START_LBA, 1) :: calls⟩
        | some snap => ⟨.ok (), from_serializable snap, (START_LBA, 1) :: calls⟩

/-! ## Framing, padding, chunking: supporting lemmas -/

theorem fromLE4_le4 (n : Nat) (rest : List Nat) :
    fromLE4 (le4 n ++ rest) = n % 4294967296 := by
  simp only [le4, fromLE4, List.cons_append, List.getD_cons_zero, List.getD_cons_succ]
  omega

theorem fromLE4_lt (l : List Nat) : fromLE4 l < 4294967296 := by
  have h0 : l.getD 0 0 % 256 < 256 := Nat.mod_lt _ (by norm_num)
  have h1 : l.getD 1 0 % 256 < 256 := Nat.mod_lt _ (by norm_num)
  have h2 : l.getD 2 0 % 256 < 256 := Nat.mod_lt _ (by norm_num)
  have h3 : l.getD 3 0 % 256 < 256 := Nat.mod_lt _ (by norm_num)
  simp only [fromLE4]
  omega

theorem padToSectorF_eq :
    ∀ (fuel : Nat) (l : List Nat), (512 - l.length % 512) % 512 ≤ fuel →
      padToSectorF fuel l = l ++ List.replicate ((512 - l.length % 512) % 512) 0 := by
  intro fuel
  induction fuel with
  | zero =>
    intro l h
    have h0 : l.length % 512 = 0 := by omega
    simp [padToSectorF, h0]
  | succ f ih =>
    intro l h
    by_cases h0 : l.length % 512 = 0
    · simp [padToSectorF, h0]
    · simp only [padToSectorF, h0, if_false]
      rw [ih (l ++ [0]) (by simp only [List.length_append, List.length_singleton]; omega)]
      simp only [List.length_append, List.length_singleton]
      rw [List.append_assoc]
      congr 1
      have hp : (512 - (l.length + 1) % 512) % 512 + 1 = (512 - l.length % 512) % 512 := by
        omega
      rw [← hp, List.singleton_append, ← List.replicate_succ]

theorem padToSector_eq (l : List Nat) :
    padToSector l = l ++ List.replicate ((512 - l.length % 512) % 512) 0 :=
  padToSectorF_eq 512 l (by omega)

theorem length_padToSector (l : List Nat) :
    (padToSector l).length = ((l.length + 511) / 512) * 512 := by
  rw [padToSector_eq]
  simp only [List.length_append, List.length_replicate]
  omega

theorem padToSector_prefix (l : List Nat) (i : Nat) (h : i < l.length) :
    (padToSector l).getD i 0 = l.getD i 0 := by
  rw [padToSector_eq]
  exact List.getD_append _ _ _ _ h

theorem padToSector_zeros (l : List Nat) (i : Nat) (h1 : l.length ≤ i)
    (h2 : i < ((l.length + 511) / 512) * 512) :
    (padToSector l).getD i 0 = 0 := by
  rw [padToSector_eq]
  rw [List.getD_append_right _ _ _ _ h1]
  have : i - l.length < (512 - l.length % 512) % 512 := by omega
  rw [List.getD_eq_getElem?_getD, List.getElem?_replicate]
  simp [this]

theorem chunkCallsF_succ (f lba remaining : Nat) (h0 : remaining ≠ 0) :
    chunkCallsF (f + 1) lba remaining =
      (lba % 4294967296, min 255 remaining) ::
        chunkCallsF f (lba + min 255 remaining) (remaining - min 255 remaining) := by
  simp [chunkCallsF, h0]

theorem readChunksF_succ_none {rd : Nat → Nat → Option (List Nat)} {lba remaining : Nat}
    (f : Nat) (h0 : remaining ≠ 0)
    (hrd : rd (lba % 4294967296) (min 255 remaining) = none) :
    readChunksF rd (f + 1) lba remaining = (none, [(lba % 4294967296, min 255 remaining)]) := by
  simp [readChunksF, h0, hrd]

theorem readChunksF_succ_some {rd : Nat → Nat → Option (List Nat)} {lba remaining : Nat}
    {bytes : List Nat} (f : Nat) (h0 : remaining ≠ 0)
    (hrd : rd (lba % 4294967296) (min 255 remaining) = some bytes) :
    readChunksF rd (f + 1) lba remaining =
      ((readChunksF rd f (lba + min 255 remaining) (remaining - min 255 remaining)).1.map
          (fun tail => bytes ++ tail),
        (lba % 4294967296, min 255 remaining) ::
          (readChunksF rd f (lba + min 255 remaining) (remaining - min 255 remaining)).2) := by
  simp [readChunksF, h0, hrd]

/-- Byte-level effect of the chunked write loop: inside the written region the
disk holds exactly the buffer, outside it is untouched. -/
theorem writeChunksF_spec :
    ∀ (fuel remaining : Nat) (d : Disk) (buf : List Nat) (lba : Nat),
      remaining ≤ fuel →
      buf.length = remaining * 512 →
      lba + remaining ≤ 4294967296 →
      ∀ a, writeChunksF fuel d buf lba remaining a =
        if lba * 512 ≤ a ∧ a < lba * 512 + remaining * 512 then buf.getD (a - lba * 512) 0
        else d a := by
  intro fuel
  induction fuel with
  | zero =>
    intro remaining d buf lba hle hlen hwrap a
    have h0 : remaining = 0 := by omega
    subst h0
    rw [writeChunksF, if_neg (by omega)]
  | succ f ih =>
    intro remaining d buf lba hle hlen hwrap a
    by_cases h0 : remaining = 0
    · subst h0
      have hw : writeChunksF (f + 1) d buf lba 0 = d := by simp [writeChunksF]
      rw [hw, if_neg (by omega)]
    · simp only [writeChunksF, h0, if_false]
      have hc1 : 1 ≤ min 255 remaining := by omega
      have hc2 : min 255 remaining ≤ remaining := min_le_right _ _
      have hlba : lba % 4294967296 = lba := Nat.mod_eq_of_lt (by omega)
      rw [hlba]
      rw [ih (remaining - min 255 remaining) _ _ (lba + min 255 remaining) (by omega)
        (by rw [List.length_drop, hlen]; omega) (by omega) a]
      by_cases ha : (lba + min 255 remaining) * 512 ≤ a ∧
          a < (lba + min 255 remaining) * 512 + (remaining - min 255 remaining) * 512
      · rw [if_pos ha, if_pos (by constructor <;> omega)]
        rw [List.getD_eq_getElem?_getD, List.getElem?_drop, ← List.getD_eq_getElem?_getD]
        congr 1
        omega
      · rw [if_neg ha]
        simp only [diskWrite]
        have hlen2 : (buf.take (min 255 remaining * 512)).length = min 255 remaining * 512 := by
          rw [List.length_take, hlen]
          have : min 255 remaining * 512 ≤ remaining * 512 :=
            Nat.mul_le_mul_right _ hc2
          omega
        by_cases hb : lba * 512 ≤ a ∧ a < lba * 512 + remaining * 512
        · have hfirst : a < lba * 512 + min 255 remaining * 512 := by omega
          rw [if_pos (by rw [hlen2]; exact ⟨hb.1, by omega⟩), if_pos hb]
          rw [List.getD_eq_getElem?_getD, List.getElem?_take, if_pos (by omega),
            ← List.getD_eq_getElem?_getD]
        · rw [if_neg (by rw [hlen2]; omega), if_neg hb]

theorem writeChunks_spec (d : Disk) (buf : List Nat) (lba remaining : Nat)
    (hlen : buf.length = remaining * 512) (hwrap : lba + remaining ≤ 4294967296) :
    ∀ a, writeChunks d buf lba remaining a =
      if lba * 512 ≤ a ∧ a < lba * 512 + remaining * 512 then buf.getD (a - lba * 512) 0
      else d a :=
  writeChunksF_spec remaining remaining d buf lba le_rfl hlen hwrap

/-- The chunked read loop over a functional device reads back exactly the flat
byte range, with the calls predicted by `chunkCallsF`: bytes are neither lost
nor duplicated at chunk boundaries. -/
theorem readChunksF_rdOf :
    ∀ (fuel remaining : Nat) (d : Disk) (lba : Nat),
      remaining ≤ fuel → lba + remaining ≤ 4294967296 →
      readChunksF (rdOf d) fuel lba remaining =
        (some (diskReadBytes d lba remaining), chunkCallsF fuel lba remaining) := by
  intro fuel
  induction fuel with
  | zero =>
    intro remaining d lba hle hwrap
    have h0 : remaining = 0 := by omega
    subst h0
    simp [readChunksF, chunkCallsF, diskReadBytes]
  | succ f ih =>
    intro remaining d lba hle hwrap
    by_cases h0 : remaining = 0
    · subst h0
      simp [readChunksF, chunkCallsF, diskReadBytes]
    · have hc1 : 1 ≤ min 255 remaining := by omega
      have hc2 : min 255 remaining ≤ remaining := min_le_right _ _
      have hlba : lba % 4294967296 = lba := Nat.mod_eq_of_lt (by omega)
      have hrd : rdOf d (lba % 4294967296) (min 255 remaining) =
          some (diskReadBytes d (lba % 4294967296) (min 255 remaining)) := rfl
      rw [readChunksF_succ_some f h0 hrd,
        ih (remaining - min 255 remaining) d (lba + min 255 remaining) (by omega) (by omega),
        chunkCallsF_succ f lba remaining h0]
      have hcat : diskReadBytes d (lba % 4294967296) (min 255 remaining) ++
          diskReadBytes d (lba + min 255 remaining) (remaining - min 255 remaining) =
          diskReadBytes d lba remaining := by
        rw [hlba]
        simp only [diskReadBytes]
        rw [← List.map_append]
        congr 1
        have h1 : (lba + min 255 remaining) * 512 = lba * 512 + 1 * (min 255 remaining * 512) := by
          ring
        rw [h1, List.range'_append]
        congr 1
        omega
      simp only [Option.map_some', hcat]

theorem readChunksAcc_rdOf (d : Disk) (lba remaining : Nat)
    (hwrap : lba + remaining ≤ 4294967296) :
    readChunksAcc (rdOf d) lba remaining =
      (some (diskReadBytes d lba remaining), chunkCalls lba remaining) :=
  readChunksF_rdOf remaining remaining d lba le_rfl hwrap

/-- When no chunk read fails, the chunked read loop issues exactly the calls
predicted by `chunkCallsF`. -/
theorem readChunksF_calls (rd : Nat → Nat → Option (List Nat)) :
    ∀ (fuel lba remaining : Nat), (readChunksF rd fuel lba remaining).1.isSome →
      (readChunksF rd fuel lba remaining).2 = chunkCallsF fuel lba remaining := by
  intro fuel
  induction fuel with
  | zero => intro lba remaining h; rfl
  | succ f ih =>
    intro lba remaining h
    by_cases h0 : remaining = 0
    · simp [readChunksF, chunkCallsF, h0]
    · cases hrd : rd (lba % 4294967296) (min 255 remaining) with
      | none =>
        rw [readChunksF_succ_none f h0 hrd] at h
        simp at h
      | some bytes =>
        rw [readChunksF_succ_some f h0 hrd] at h ⊢
        rw [chunkCallsF_succ f lba remaining h0]
        simp only [List.cons.injEq, true_and]
        apply ih
        cases hrec : (readChunksF rd f (lba + min 255 remaining)
            (remaining - min 255 remaining)).1 with
        | none => rw [hrec] at h; simp at h
        | some tail => simp [hrec]

/-- The sectors covered by the chunked calls are exactly the contiguous range,
each sector once. -/
theorem chunkCallsF_sectors :
    ∀ (fuel remaining lba : Nat), remaining ≤ fuel → lba + remaining ≤ 4294967296 →
      ((chunkCallsF fuel lba remaining).map (fun c => List.range' c.1 c.2)).flatten =
        List.range' lba remaining := by
  intro fuel
  induction fuel with
  | zero =>
    intro remaining lba hle hwrap
    have h0 : remaining = 0 := by omega
    subst h0
    rfl
  | succ f ih =>
    intro remaining lba hle hwrap
    by_cases h0 : remaining = 0
    · subst h0
      rfl
    · have hc2 : min 255 remaining ≤ remaining := min_le_right _ _
      have hlba : lba % 4294967296 = lba := Nat.mod_eq_of_lt (by omega)
      simp only [chunkCallsF, h0, if_false, hlba, List.map_cons, List.flatten_cons]
      rw [ih (remaining - min 255 remaining) (lba + min 255 remaining) (by omega) (by omega)]
      have h1 : lba + min 255 remaining = lba + 1 * min 255 remaining := by ring
      rw [h1, List.range'_append]
      congr 1
      omega

/-! ## Byte layout of a saved snapshot, and the save/load round trip -/

/-- The framed, padded buffer `save_to_disk` writes for tree `t`:
`[MAGIC u32 LE][len as u32 LE][payload][zero padding to a sector multiple]`. -/
def snapshotBytes (t : DirM) : List Nat :=
  padToSector (le4 MAGIC ++ le4 (encodeSDir (to_serializable t)).length
    ++ encodeSDir (to_serializable t))

/-- `sectors_total` computed by `save_to_disk` for tree `t`. -/
def snapshotSectors (t : DirM) : Nat :=
  (8 + (encodeSDir (to_serializable t)).length + 511) / 512

theorem save_to_disk_eq (t : DirM) (d : Disk) :
    save_to_disk t d = writeChunks d (snapshotBytes t) START_LBA (snapshotSectors t) := rfl

theorem length_snapshotBytes (t : DirM) :
    (snapshotBytes t).length = snapshotSectors t * 512 := by
  rw [snapshotBytes, length_padToSector]
  simp only [List.length_append, le4, List.length_cons, List.length_nil, snapshotSectors]

theorem snapshotSectors_pos (t : DirM) : 1 ≤ snapshotSectors t := by
  rw [snapshotSectors]
  omega

/-- Byte-level contents of the disk after a successful save: the snapshot
buffer sits at the region starting at sector `START_LBA`; all other bytes are
untouched. -/
theorem save_to_disk_byte (t : DirM) (d : Disk)
    (hwrap : START_LBA + snapshotSectors t ≤ 4294967296) (a : Nat) :
    save_to_disk t d a =
      if START_LBA * 512 ≤ a ∧ a < START_LBA * 512 + snapshotSectors t * 512 then
        (snapshotBytes t).getD (a - START_LBA * 512) 0
      else d a := by
  rw [save_to_disk_eq]
  exact writeChunks_spec d (snapshotBytes t) START_LBA (snapshotSectors t)
    (length_snapshotBytes t) hwrap a

theorem save_to_disk_byte_in (t : DirM) (d : Disk)
    (hwrap : START_LBA + snapshotSectors t ≤ 4294967296) {a : Nat}
    (h1 : START_LBA * 512 ≤ a) (h2 : a < START_LBA * 512 + snapshotSectors t * 512) :
    save_to_disk t d a = (snapshotBytes t).getD (a - START_LBA * 512) 0 := by
  rw [save_to_disk_byte t d hwrap a]
  split
  · rfl
  · next h => exact absurd ⟨h1, h2⟩ h

theorem save_to_disk_byte_out (t : DirM) (d : Disk)
    (hwrap : START_LBA + snapshotSectors t ≤ 4294967296) {a : Nat}
    (h : a < START_LBA * 512 ∨ START_LBA * 512 + snapshotSectors t * 512 ≤ a) :
    save_to_disk t d a = d a := by
  rw [save_to_disk_byte t d hwrap a]
  split
  · next hc => omega
  · rfl

/-- Reading `cnt ≤ sectors_total` sectors from the start of the saved region
returns the corresponding prefix of the snapshot buffer. -/
theorem diskReadBytes_save (t : DirM) (d : Disk)
    (hwrap : START_LBA + snapshotSectors t ≤ 4294967296)
    (cnt : Nat) (hcnt : cnt ≤ snapshotSectors t) :
    diskReadBytes (save_to_disk t d) START_LBA cnt = (snapshotBytes t).take (cnt * 512) := by
  apply List.ext_getElem?
  intro i
  by_cases hi : i < cnt * 512
  · rw [diskReadBytes, List.getElem?_map, List.getElem?_range' _ _ hi]
    simp only [one_mul]
    have hlt : i < (snapshotBytes t).length := by
      rw [length_snapshotBytes]
      have := Nat.mul_le_mul_right 512 hcnt
      omega
    rw [List.getElem?_take, if_pos hi, List.getElem?_eq_getElem hlt]
    simp only [Option.map_some']
    have hmul : cnt * 512 ≤ snapshotSectors t * 512 := Nat.mul_le_mul_right 512 hcnt
    have hbyte : save_to_disk t d (START_LBA * 512 + i) = (snapshotBytes t).getD i 0 := by
      rw [save_to_disk_byte_in t d hwrap (by omega) (by omega)]
      have hidx : START_LBA * 512 + i - START_LBA * 512 = i := by omega
      rw [hidx]
    rw [hbyte, List.getD_eq_getElem (snapshotBytes t) 0 hlt]
  · rw [diskReadBytes, List.getElem?_map]
    rw [List.getElem?_eq_none (by simp [List.length_range']; omega)]
    rw [List.getElem?_eq_none (by rw [List.length_take]; omega)]
    rfl

theorem fromLE4_take {l : List Nat} {m : Nat} (h : 4 ≤ m) :
    fromLE4 (l.take m) = fromLE4 l := by
  simp only [fromLE4, List.getD_eq_getElem?_getD, List.getElem?_take]
  rw [if_pos (by omega), if_pos (by omega), if_pos (by omega), if_pos (by omega)]

/-- The snapshot buffer decomposed: magic, length field, payload, padding. -/
theorem snapshotBytes_decomp (t : DirM) :
    snapshotBytes t =
      le4 MAGIC ++ le4 (encodeSDir (to_serializable t)).length
        ++ encodeSDir (to_serializable t)
        ++ List.replicate (snapshotSectors t * 512 - (8 + (encodeSDir (to_serializable t)).length))
          0 := by
  rw [snapshotBytes, padToSector_eq]
  have hl : (le4 MAGIC ++ le4 (encodeSDir (to_serializable t)).length
      ++ encodeSDir (to_serializable t)).length = 8 + (encodeSDir (to_serializable t)).length := by
    simp [le4]
    omega
  rw [hl]
  have hc : (512 - (8 + (encodeSDir (to_serializable t)).length) % 512) % 512 =
      snapshotSectors t * 512 - (8 + (encodeSDir (to_serializable t)).length) := by
    rw [snapshotSectors]
    omega
  rw [hc]

/-! ## Behaviour of `load_from_disk`, branch by branch -/

theorem load_from_disk_eq_nodev {rd : Nat → Nat → Option (List Nat)} {root : DirM}
    (h : rd START_LBA 1 = none) :
    load_from_disk rd root = ⟨.error (), root, [(START_LBA, 1)]⟩ := by
  unfold load_from_disk
  rw [h]

theorem load_from_disk_eq_badmagic {rd : Nat → Nat → Option (List Nat)} {root : DirM}
    {first : List Nat} (h : rd START_LBA 1 = some first) (hm : fromLE4 first ≠ MAGIC) :
    load_from_disk rd root = ⟨.error (), root, [(START_LBA, 1)]⟩ := by
  unfold load_from_disk
  rw [h]
  dsimp only
  rw [if_pos hm]

theorem load_from_disk_eq_readfail {rd : Nat → Nat → Option (List Nat)} {root : DirM}
    {first : List Nat} {calls : List (Nat × Nat)}
    (h : rd START_LBA 1 = some first) (hm : fromLE4 first = MAGIC)
    (h2 : readChunksAcc rd START_LBA ((8 + fromLE4 (first.drop 4) + 511) / 512) =
      (none, calls)) :
    load_from_disk rd root = ⟨.error (), root, (START_LBA, 1) :: calls⟩ := by
  unfold load_from_disk
  rw [h]
  dsimp only
  rw [if_neg (by simp [hm]), h2]

theorem load_from_disk_eq_baddecode {rd : Nat → Nat → Option (List Nat)} {root : DirM}
    {first buf : List Nat} {calls : List (Nat × Nat)}
    (h : rd START_LBA 1 = some first) (hm : fromLE4 first = MAGIC)
    (h2 : readChunksAcc rd START_LBA ((8 + fromLE4 (first.drop 4) + 511) / 512) =
      (some buf, calls))
    (h3 : decodeSDir ((buf.drop 8).take (fromLE4 (first.drop 4))) = none) :
    load_from_disk rd root = ⟨.error (), root, (START_LBA, 1) :: calls⟩ := by
  unfold load_from_disk
  rw [h]
  dsimp only
  rw [if_neg (by simp [hm]), h2]
  dsimp only
  rw [h3]

theorem load_from_disk_eq_ok {rd : Nat → Nat → Option (List Nat)} {root : DirM}
    {first buf : List Nat} {calls : List (Nat × Nat)} {snap : SDir}
    (h : rd START_LBA 1 = some first) (hm : fromLE4 first = MAGIC)
    (h2 : readChunksAcc rd START_LBA ((8 + fromLE4 (first.drop 4) + 511) / 512) =
      (some buf, calls))
    (h3 : decodeSDir ((buf.drop 8).take (fromLE4 (first.drop 4))) = some snap) :
    load_from_disk rd root = ⟨.ok (), from_serializable snap, (START_LBA, 1) :: calls⟩ := by
  unfold load_from_disk
  rw [h]
  dsimp only
  rw [if_neg (by simp [hm]), h2]
  dsimp only
  rw [h3]

/-- Every failing `load_from_disk` leaves the live root untouched (the root is
only replaced in the single fully successful branch). -/
theorem load_error_root (rd : Nat → Nat → Option (List Nat)) (root : DirM)
    (h : (load_from_disk rd root).res = .error ()) :
    (load_from_disk rd root).root = root := by
  cases hrd : rd START_LBA 1 with
  | none => rw [load_from_disk_eq_nodev hrd]
  | some first =>
    by_cases hm : fromLE4 first = MAGIC
    · rcases h2 : readChunksAcc rd START_LBA ((8 + fromLE4 (first.drop 4) + 511) / 512)
        with ⟨o, calls⟩
      cases o with
      | none => rw [load_from_disk_eq_readfail hrd hm h2]
      | some buf =>
        cases h3 : decodeSDir ((buf.drop 8).take (fromLE4 (first.drop 4))) with
        | none => rw [load_from_disk_eq_baddecode hrd hm h2 h3]
        | some snap =>
          rw [load_from_disk_eq_ok hrd hm h2 h3] at h
          simp at h
    · rw [load_from_disk_eq_badmagic hrd hm]

/-! ## The save/load round trip -/

theorem snapshotSectors_eq (t : DirM) :
    snapshotSectors t = (8 + (encodeSDir (to_serializable t)).length + 511) / 512 := rfl

theorem snapshot_hwrap (t : DirM)
    (hlen : (encodeSDir (to_serializable t)).length < 4294967296) :
    START_LBA + snapshotSectors t ≤ 4294967296 := by
  have h1 : snapshotSectors t = (8 + (encodeSDir (to_serializable t)).length + 511) / 512 := rfl
  have h2 : START_LBA = 2048 := rfl
  omega

/-- A successful save followed by a load on a working device: the load
succeeds, the live tree is replaced by a tree structurally equal to the saved
one, and the driver calls are the header read followed by the ≤255-sector
chunked re-read of the whole region. -/
theorem load_after_save (t : DirM) (d0 : Disk) (r0 : DirM)
    (hwf : WFdir t)
    (hlen : (encodeSDir (to_serializable t)).length < 4294967296) :
    load_from_disk (rdOf (save_to_disk t d0)) r0 =
      ⟨.ok (), t, (START_LBA, 1) :: chunkCalls START_LBA (snapshotSectors t)⟩ := by
  have hwrap : START_LBA + snapshotSectors t ≤ 4294967296 := snapshot_hwrap t hlen
  have hpos : 1 ≤ snapshotSectors t := snapshotSectors_pos t
  have hfirst : rdOf (save_to_disk t d0) START_LBA 1 =
      some ((snapshotBytes t).take (1 * 512)) := by
    rw [rdOf, diskReadBytes_save t d0 hwrap 1 hpos]
  have hassoc : snapshotBytes t =
      le4 MAGIC ++ (le4 (encodeSDir (to_serializable t)).length
        ++ (encodeSDir (to_serializable t)
          ++ List.replicate
            (snapshotSectors t * 512 - (8 + (encodeSDir (to_serializable t)).length)) 0)) := by
    rw [snapshotBytes_decomp]
    simp [List.append_assoc]
  have hmagic : fromLE4 ((snapshotBytes t).take (1 * 512)) = MAGIC := by
    rw [fromLE4_take (by omega), hassoc, fromLE4_le4]
    rfl
  have hlenfield : fromLE4 (((snapshotBytes t).take (1 * 512)).drop 4) =
      (encodeSDir (to_serializable t)).length := by
    rw [List.drop_take, fromLE4_take (by omega), hassoc]
    have h4 : (4 : Nat) = (le4 MAGIC).length := rfl
    rw [h4, List.drop_left, fromLE4_le4]
    omega
  have hsect : (8 + fromLE4 (((snapshotBytes t).take (1 * 512)).drop 4) + 511) / 512 =
      snapshotSectors t := by
    rw [hlenfield, snapshotSectors_eq]
  have hfull : diskReadBytes (save_to_disk t d0) START_LBA (snapshotSectors t) =
      snapshotBytes t := by
    rw [diskReadBytes_save t d0 hwrap _ le_rfl, ← length_snapshotBytes, List.take_length]
  have hchunks : readChunksAcc (rdOf (save_to_disk t d0)) START_LBA (snapshotSectors t) =
      (some (snapshotBytes t), chunkCalls START_LBA (snapshotSectors t)) := by
    rw [readChunksAcc_rdOf _ _ _ hwrap, hfull]
  have hpayload : ((snapshotBytes t).drop 8).take
      (fromLE4 (((snapshotBytes t).take (1 * 512)).drop 4)) = encodeSDir (to_serializable t) := by
    rw [hlenfield, snapshotBytes_decomp, List.append_assoc, List.append_assoc]
    have h8 : (8 : Nat) =
        (le4 MAGIC ++ le4 (encodeSDir (to_serializable t)).length).length := rfl
    rw [← List.append_assoc (le4 MAGIC), h8, List.drop_left]
    have hdl : (encodeSDir (to_serializable t)).length =
        (encodeSDir (to_serializable t)).length := rfl
    exact List.take_left _ _
  have hdecode : decodeSDir (((snapshotBytes t).drop 8).take
      (fromLE4 (((snapshotBytes t).take (1 * 512)).drop 4))) = some (to_serializable t) := by
    rw [hpayload]
    exact decodeSDir_encodeSDir (to_serializable t)
  rw [load_from_disk_eq_ok hfirst hmagic (by rw [hsect]; exact hchunks) hdecode,
    from_to_serializable hwf]

/-! ## The ATA polled driver (`src/block/ata.rs`)

The device is modelled by the stream `s` of values that successive reads of
the status register return within one driver call (`s n` is the `n`-th status
read, reduced `% 256` at the read site since the port returns a `u8`), plus a
stream of data words for the data port.  Constants as in the source. -/

def ATA_PRIMARY_IO : Nat := 0x1F0
def ATA_PRIMARY_CTRL : Nat := 0x3F6
def REG_DATA : Nat := ATA_PRIMARY_IO + 0
def REG_SECTOR_COUNT : Nat := ATA_PRIMARY_IO + 2
def REG_LBA0 : Nat := ATA_PRIMARY_IO + 3
def REG_LBA1 : Nat := ATA_PRIMARY_IO + 4
def REG_LBA2 : Nat := ATA_PRIMARY_IO + 5
def REG_DRIVE_HEAD : Nat := ATA_PRIMARY_IO + 6
def REG_STATUS_COMMAND : Nat := ATA_PRIMARY_IO + 7
def REG_ALT_STATUS_DEVCTRL : Nat := ATA_PRIMARY_CTRL + 0
def CMD_READ_SECTORS : Nat := 0x20
def CMD_WRITE_SECTORS : Nat := 0x30

/-- One port I/O operation. -/
inductive PortEv : Type where
  | out8 (port val : Nat)
  | in8 (port : Nat)
  | in16 (port : Nat)
  | out16 (port val : Nat)
deriving DecidableEq

/-- The loop of `ata_present` (`ata.rs` lines 80–86): 8 status reads tracking
`(same, last)` — `same` counts consecutive equal reads with a `u8` saturating
add, but is never consulted afterwards. -/
def presentLoop (s : Nat → Nat) : Nat → Nat × Nat
  | 0 => (0, 0)
  | i + 1 =>
    let p := presentLoop s i
    (if s i % 256 = p.2 then min (p.1 + 1) 255 else 0, s i % 256)

/-- `ata_present` (`ata.rs` lines 78–89): run the 8-read loop, then report the
device absent exactly when the last value read is `0xFF`. -/
def ata_present (s : Nat → Nat) : Bool :=
  if (presentLoop s 8).2 = 255 then false else true

/-- Per-read decision of a polling loop. -/
inductive PollStep : Type where
  | cont
  | fail
  | ready
deriving DecidableEq

/-- Per-status-read decision of `ata_wait_ready`'s polling loop (`ata.rs`
lines 69–73), in the source's check order: an all-zero or all-one read is
noise (keep polling); then busy keeps polling; then error or device-fault
fails; then ready succeeds; anything else keeps polling. -/
def classifyStatus (v : Nat) : PollStep :=
  if v = 0 ∨ v = 255 then .cont
  else if v.testBit 7 then .cont
  else if v.testBit 0 ∨ v.testBit 5 then .fail
  else if v.testBit 6 then .ready
  else .cont

/-- The bounded polling loop of `ata_wait_ready`: `n` is the index of the next
status read, the second argument the remaining iteration budget (1 000 000 at
entry).  Returns the result and the index after the last read performed. -/
def waitReadyLoop (s : Nat → Nat) : Nat → Nat → (Except Unit Unit) × Nat
  | n, 0 => (.error (), n)
  | n, k + 1 =>
    match classifyStatus (s n % 256) with
    | .cont => waitReadyLoop s (n + 1) k
    | .fail => (.error (), n + 1)
    | .ready => (.ok (), n + 1)

/-- `ata_wait_ready` (`ata.rs` lines 60–76) with its polls starting at
status-read index `n`; the four preceding ~400ns dummy reads go to the
alternate-status register and do not consume indices of `s`. -/
def ata_wait_ready (s : Nat → Nat) (n : Nat) : (Except Unit Unit) × Nat :=
  waitReadyLoop s n 1000000

/-- Per-status-read decision of `ata_wait_drq` (`ata.rs` lines 92–97): error or
device-fault fails, data-request succeeds, anything else (including busy)
keeps polling. -/
def classifyDrq (v : Nat) : PollStep :=
  if v.testBit 0 ∨ v.testBit 5 then .fail
  else if v.testBit 3 then .ready
  else .cont

def waitDrqLoop (s : Nat → Nat) : Nat → Nat → (Except Unit Unit) × Nat
  | n, 0 => (.error (), n)
  | n, k + 1 =>
    match classifyDrq (s n % 256) with
    | .cont => waitDrqLoop s (n + 1) k
    | .fail => (.error (), n + 1)
    | .ready => (.ok (), n + 1)

/-- `ata_wait_drq` (`ata.rs` lines 91–99). -/
def ata_wait_drq (s : Nat → Nat) (n : Nat) : (Except Unit Unit) × Nat :=
  waitDrqLoop s n 1000000

/-- State of a per-sector data-transfer loop: result, next status-read index,
next data-word index, bytes transferred so far, port operations issued. -/
structure XferOut where
  res : Except Unit Unit
  nextStatus : Nat
  nextWord : Nat
  bytes : List Nat
  trace : List PortEv

/-- The per-sector read loop of `read_lba28` (`ata.rs` lines 123–131): per
sector, wait for DRQ then transfer 256 words through the data port, low byte
first. -/
def readSectors (s dataw : Nat → Nat) : Nat → Nat → Nat → XferOut
  | n, w, 0 => ⟨.ok (), n, w, [], []⟩
  | n, w, k + 1 =>
    match ata_wait_drq s n with
    | (.error _, n2) =>
      ⟨.error (), n2, w, [], List.replicate (n2 - n) (.in8 REG_STATUS_COMMAND)⟩
    | (.ok _, n2) =>
      let bytes := ((List.range 256).map (fun i =>
        [dataw (w + i) % 256, dataw (w + i) % 65536 / 256])).flatten
      let rest := readSectors s dataw n2 (w + 256) k
      ⟨rest.res, rest.nextStatus, rest.nextWord, bytes ++ rest.bytes,
        List.replicate (n2 - n) (.in8 REG_STATUS_COMMAND)
          ++ List.replicate 256 (.in16 REG_DATA) ++ rest.trace⟩

/-- The per-sector write loop of `write_lba28` (`ata.rs` lines 157–164): per
sector, wait for DRQ then write 256 words built from consecutive byte pairs of
the input. -/
def writeSectors (s : Nat → Nat) (data : List Nat) : Nat → Nat → Nat → XferOut
  | n, w, 0 => ⟨.ok (), n, w, [], []⟩
  | n, w, k + 1 =>
    match ata_wait_drq s n with
    | (.error _, n2) =>
      ⟨.error (), n2, w, [], List.replicate (n2 - n) (.in8 REG_STATUS_COMMAND)⟩
    | (.ok _, n2) =>
      let outs := (List.range 256).map (fun i =>
        PortEv.out16 REG_DATA
          (data.getD ((w + i) * 2) 0 % 256 + 256 * (data.getD ((w + i) * 2 + 1) 0 % 256)))
      let rest := writeSectors s data n2 (w + 256) k
      ⟨rest.res, rest.nextStatus, rest.nextWord, [],
        List.replicate (n2 - n) (.in8 REG_STATUS_COMMAND) ++ outs ++ rest.trace⟩

/-- Result of one driver call: the `Result`, the bytes read (for reads), and
the port operations issued. -/
structure AtaOut where
  res : Except Unit Unit
  buf : List Nat
  trace : List PortEv

/-- `read_lba28` (`ata.rs` lines 101–135): the zero-sector no-op and the
buffer-size guard come before any port access; then drive select and nIEN,
presence probe (status reads 0–7), ready wait (from status read 8), command
programming, and the per-sector transfer. -/
def read_lba28 (s dataw : Nat → Nat) (lba cnt buflen : Nat) : AtaOut :=
  if cnt = 0 then ⟨.ok (), [], []⟩
  else if buflen < cnt * 512 then ⟨.error (), [], []⟩
  else
    let t0 : List PortEv :=
      [.out8 REG_DRIVE_HEAD (240 + lba / 16777216 % 16), .out8 REG_ALT_STATUS_DEVCTRL 2]
    let presTrace := List.replicate 8 (PortEv.in8 REG_STATUS_COMMAND)
    if ata_present s = false then ⟨.error (), [], t0 ++ presTrace⟩
    else
      match ata_wait_ready s 8 with
      | (.error _, n1) =>
        ⟨.error (), [], t0 ++ presTrace ++ List.replicate 4 (.in8 REG_ALT_STATUS_DEVCTRL)
          ++ List.replicate (n1 - 8) (.in8 REG_STATUS_COMMAND)⟩
      | (.ok _, n1) =>
        let cmds : List PortEv :=
          [.out8 REG_SECTOR_COUNT (cnt % 256), .out8 REG_LBA0 (lba % 256),
            .out8 REG_LBA1 (lba / 256 % 256), .out8 REG_LBA2 (lba / 65536 % 256),
            .out8 REG_STATUS_COMMAND CMD_READ_SECTORS]
        let x := readSectors s dataw n1 0 cnt
        ⟨x.res, x.bytes, t0 ++ presTrace ++ List.replicate 4 (.in8 REG_ALT_STATUS_DEVCTRL)
          ++ List.replicate (n1 - 8) (.in8 REG_STATUS_COMMAND) ++ cmds ++ x.trace⟩

/-- `write_lba28` (`ata.rs` lines 137–169): same structure as `read_lba28`,
with one extra ready wait after all sectors are transferred. -/
def write_lba28 (s : Nat → Nat) (lba cnt : Nat) (data : List Nat) : AtaOut :=
  if cnt = 0 then ⟨.ok (), [], []⟩
  else if data.length < cnt * 512 then ⟨.error (), [], []⟩
  else
    let t0 : List PortEv :=
      [.out8 REG_DRIVE_HEAD (240 + lba / 16777216 % 16), .out8 REG_ALT_STATUS_DEVCTRL 2]
    let presTrace := List.replicate 8 (PortEv.in8 REG_STATUS_COMMAND)
    if ata_present s = false then ⟨.error (), [], t0 ++ presTrace⟩
    else
      match ata_wait_ready s 8 with
      | (.error _, n1) =>
        ⟨.error (), [], t0 ++ presTrace ++ List.replicate 4 (.in8 REG_ALT_STATUS_DEVCTRL)
          ++ List.replicate (n1 - 8) (.in8 REG_STATUS_COMMAND)⟩
      | (.ok _, n1) =>
        let cmds : List PortEv :=
          [.out8 REG_SECTOR_COUNT (cnt % 256), .out8 REG_LBA0 (lba % 256),
            .out8 REG_LBA1 (lba / 256 % 256), .out8 REG_LBA2 (lba / 65536 % 256),
            .out8 REG_STATUS_COMMAND CMD_WRITE_SECTORS]
        let x := writeSectors s data n1 0 cnt
        let pre := t0 ++ presTrace ++ List.replicate 4 (.in8 REG_ALT_STATUS_DEVCTRL)
          ++ List.replicate (n1 - 8) (.in8 REG_STATUS_COMMAND) ++ cmds ++ x.trace
        match x.res with
        | .error _ => ⟨.error (), [], pre⟩
        | .ok _ =>
          match ata_wait_ready s x.nextStatus with
          | (.error _, n2) =>
            ⟨.error (), [], pre ++ List.replicate 4 (.in8 REG_ALT_STATUS_DEVCTRL)
              ++ List.replicate (n2 - x.nextStatus) (.in8 REG_STATUS_COMMAND)⟩
          | (.ok _, n2) =>
            ⟨.ok (), [], pre ++ List.replicate 4 (.in8 REG_ALT_STATUS_DEVCTRL)
              ++ List.replicate (n2 - x.nextStatus) (.in8 REG_STATUS_COMMAND)⟩

/-! ## Driver behaviour lemmas -/

theorem presentLoop_last (s : Nat → Nat) : (presentLoop s 8).2 = s 7 % 256 := rfl

/-- The presence verdict depends only on the final (eighth) status read. -/
theorem ata_present_false_iff (s : Nat → Nat) :
    ata_present s = false ↔ s 7 % 256 = 255 := by
  rw [ata_present, presentLoop_last]
  by_cases hc : s 7 % 256 = 255
  · simp [hc]
  · simp [hc]

theorem waitReadyLoop_skip (s : Nat → Nat) :
    ∀ (j n k : Nat), j ≤ k → (∀ i < j, classifyStatus (s (n + i) % 256) = .cont) →
      waitReadyLoop s n k = waitReadyLoop s (n + j) (k - j) := by
  intro j
  induction j with
  | zero => intro n k h1 h2; simp
  | succ m ih =>
    intro n k h1 h2
    obtain ⟨k2, rfl⟩ : ∃ k2, k = k2 + 1 := ⟨k - 1, by omega⟩
    have h0 : classifyStatus (s n % 256) = .cont := by
      have := h2 0 (by omega)
      simpa using this
    simp only [waitReadyLoop, h0]
    rw [ih (n + 1) k2 (by omega) (fun i hi => by
      have := h2 (i + 1) (by omega)
      rw [show n + 1 + i = n + (i + 1) by omega]
      exact this)]
    rw [show n + 1 + m = n + (m + 1) by omega, show k2 - m = k2 + 1 - (m + 1) by omega]

/-- If every status read up to the iteration ceiling keeps the loop polling,
`ata_wait_ready` exhausts the ceiling, fails, and has performed exactly
1 000 000 status reads. -/
theorem ata_wait_ready_timeout (s : Nat → Nat)
    (h : ∀ i < 1000000, classifyStatus (s i % 256) = .cont) :
    ata_wait_ready s 0 = (.error (), 1000000) := by
  rw [ata_wait_ready,
    waitReadyLoop_skip s 1000000 0 1000000 le_rfl (fun i hi => by simpa using h i hi)]
  simp [waitReadyLoop]

/-- If the first deciding status read classifies as a failure, the wait fails
right there, after `j + 1` reads. -/
theorem ata_wait_ready_first_fail (s : Nat → Nat) (j : Nat) (hj : j < 1000000)
    (hpre : ∀ i < j, classifyStatus (s i % 256) = .cont)
    (hf : classifyStatus (s j % 256) = .fail) :
    ata_wait_ready s 0 = (.error (), j + 1) := by
  rw [ata_wait_ready,
    waitReadyLoop_skip s j 0 1000000 (by omega) (fun i hi => by simpa using hpre i hi)]
  obtain ⟨m, hm⟩ : ∃ m, 1000000 - j = m + 1 := ⟨1000000 - j - 1, by omega⟩
  rw [hm]
  have hf2 : classifyStatus (s (0 + j) % 256) = .fail := by simpa using hf
  simp only [waitReadyLoop, Nat.zero_add]
  rw [hf]

/-- If the first deciding status read classifies as ready, the wait succeeds
right there, after `j + 1` reads. -/
theorem ata_wait_ready_first_ready (s : Nat → Nat) (j : Nat) (hj : j < 1000000)
    (hpre : ∀ i < j, classifyStatus (s i % 256) = .cont)
    (hf : classifyStatus (s j % 256) = .ready) :
    ata_wait_ready s 0 = (.ok (), j + 1) := by
  rw [ata_wait_ready,
    waitReadyLoop_skip s j 0 1000000 (by omega) (fun i hi => by simpa using hpre i hi)]
  obtain ⟨m, hm⟩ : ∃ m, 1000000 - j = m + 1 := ⟨1000000 - j - 1, by omega⟩
  rw [hm]
  have hf2 : classifyStatus (s (0 + j) % 256) = .ready := by simpa using hf
  simp only [waitReadyLoop, Nat.zero_add]
  rw [hf]

/-- Characterization of the per-read decision, for `u8` status values. -/
theorem classifyStatus_iff :
    ∀ v < 256,
      (classifyStatus v = .cont ↔
        (v = 0 ∨ v = 255 ∨ v.testBit 7 = true ∨
          (v.testBit 0 = false ∧ v.testBit 5 = false ∧ v.testBit 6 = false))) ∧
      (classifyStatus v = .fail ↔
        (v ≠ 0 ∧ v ≠ 255 ∧ v.testBit 7 = false ∧
          (v.testBit 0 = true ∨ v.testBit 5 = true))) ∧
      (classifyStatus v = .ready ↔
        (v ≠ 0 ∧ v ≠ 255 ∧ v.testBit 7 = false ∧ v.testBit 0 = false ∧
          v.testBit 5 = false ∧ v.testBit 6 = true)) := by
  decide

/-- The zero-sector no-op of both driver calls. -/
theorem read_lba28_zero (s dataw : Nat → Nat) (lba buflen : Nat) :
    read_lba28 s dataw lba 0 buflen = ⟨.ok (), [], []⟩ := rfl

theorem write_lba28_zero (s : Nat → Nat) (lba : Nat) (data : List Nat) :
    write_lba28 s lba 0 data = ⟨.ok (), [], []⟩ := rfl

/-- An undersized buffer fails the read before any port access. -/
theorem read_lba28_undersized (s dataw : Nat → Nat) (lba cnt buflen : Nat)
    (h0 : cnt ≠ 0) (h1 : buflen < cnt * 512) :
    read_lba28 s dataw lba cnt buflen = ⟨.error (), [], []⟩ := by
  unfold read_lba28
  rw [if_neg h0, if_pos h1]

/-- An undersized buffer fails the write before any port access. -/
theorem write_lba28_undersized (s : Nat → Nat) (lba cnt : Nat) (data : List Nat)
    (h0 : cnt ≠ 0) (h1 : data.length < cnt * 512) :
    write_lba28 s lba cnt data = ⟨.error (), [], []⟩ := by
  unfold write_lba28
  rw [if_neg h0, if_pos h1]

/-- A device whose eighth status read is all-ones makes `read_lba28` fail
(`NotPresent`), after only the two register writes and the eight probe
reads. -/
theorem read_lba28_notpresent (s dataw : Nat → Nat) (lba cnt buflen : Nat)
    (h0 : cnt ≠ 0) (h1 : ¬ buflen < cnt * 512) (hp : s 7 % 256 = 255) :
    read_lba28 s dataw lba cnt buflen =
      ⟨.error (), [],
        [.out8 REG_DRIVE_HEAD (240 + lba / 16777216 % 16), .out8 REG_ALT_STATUS_DEVCTRL 2]
          ++ List.replicate 8 (PortEv.in8 REG_STATUS_COMMAND)⟩ := by
  have hpf : ata_present s = false := (ata_present_false_iff s).mpr hp
  unfold read_lba28
  rw [if_neg h0, if_neg h1]
  simp only [hpf, if_pos]

theorem write_lba28_notpresent (s : Nat → Nat) (lba cnt : Nat) (data : List Nat)
    (h0 : cnt ≠ 0) (h1 : ¬ data.length < cnt * 512) (hp : s 7 % 256 = 255) :
    write_lba28 s lba cnt data =
      ⟨.error (), [],
        [.out8 REG_DRIVE_HEAD (240 + lba / 16777216 % 16), .out8 REG_ALT_STATUS_DEVCTRL 2]
          ++ List.replicate 8 (PortEv.in8 REG_STATUS_COMMAND)⟩ := by
  have hpf : ata_present s = false := (ata_present_false_iff s).mpr hp
  unfold write_lba28
  rw [if_neg h0, if_neg h1]
  simp only [hpf, if_pos]

/-! ## Trace lemmas for the save events and the load read calls -/

theorem writesWhileLocked_writes_concat (l : List (Nat × Nat)) :
    writesWhileLocked (l.map (fun c => SaveEv.drvWrite c.1 c.2) ++ [SaveEv.unlockTree]) true =
      l.length := by
  induction l with
  | nil => rfl
  | cons c l ih =>
    have h1 : writesWhileLocked (SaveEv.drvWrite c.1 c.2 ::
        (l.map (fun c => SaveEv.drvWrite c.1 c.2) ++ [SaveEv.unlockTree])) true =
        1 + writesWhileLocked (l.map (fun c => SaveEv.drvWrite c.1 c.2)
          ++ [SaveEv.unlockTree]) true := by
      simp [writesWhileLocked]
    simp only [List.map_cons, List.cons_append, List.length_cons]
    rw [h1, ih]
    omega

theorem countWrites_writes_concat (l : List (Nat × Nat)) :
    countWrites (l.map (fun c => SaveEv.drvWrite c.1 c.2) ++ [SaveEv.unlockTree]) = l.length := by
  induction l with
  | nil => rfl
  | cons c l ih =>
    have h1 : countWrites (SaveEv.drvWrite c.1 c.2 ::
        (l.map (fun c => SaveEv.drvWrite c.1 c.2) ++ [SaveEv.unlockTree])) =
        1 + countWrites (l.map (fun c => SaveEv.drvWrite c.1 c.2) ++ [SaveEv.unlockTree]) := by
      simp [countWrites]
    simp only [List.map_cons, List.cons_append, List.length_cons]
    rw [h1, ih]
    omega

/-- Every driver write of a save happens while the tree lock is held. -/
theorem saveEvents_writesWhileLocked (t : DirM) :
    writesWhileLocked (saveEvents t) false =
      (chunkCalls START_LBA (snapshotSectors t)).length := by
  rw [saveEvents]
  simp only [writesWhileLocked]
  exact writesWhileLocked_writes_concat _

theorem saveEvents_countWrites (t : DirM) :
    countWrites (saveEvents t) = (chunkCalls START_LBA (snapshotSectors t)).length := by
  rw [saveEvents]
  simp only [countWrites]
  exact countWrites_writes_concat _

theorem chunkCalls_length_pos (lba remaining : Nat) (h : 1 ≤ remaining) :
    1 ≤ (chunkCalls lba remaining).length := by
  rw [chunkCalls]
  obtain ⟨m, rfl⟩ : ∃ m, remaining = m + 1 := ⟨remaining - 1, by omega⟩
  rw [chunkCallsF_succ m lba (m + 1) (by omega)]
  simp

/-- The tree lock is released only as the very last event of a save. -/
theorem saveEvents_last (t : DirM) : (saveEvents t).getLast? = some SaveEv.unlockTree := by
  rw [saveEvents]
  generalize (chunkCalls START_LBA
    ((8 + (encodeSDir (to_serializable t)).length + 511) / 512)).map
      (fun c => SaveEv.drvWrite c.1 c.2) = X
  rw [show SaveEv.lockTree :: SaveEv.encode :: (X ++ [SaveEv.unlockTree]) =
    (SaveEv.lockTree :: SaveEv.encode :: X) ++ [SaveEv.unlockTree] from by simp]
  exact List.getLast?_concat _

/-- The individual sectors covered by a list of driver read calls. -/
def sectorsRead (calls : List (Nat × Nat)) : List Nat :=
  (calls.map (fun c => List.range' c.1 c.2)).flatten

/-- As soon as the header sector parses (magic matches) and no chunk read
fails, the read calls of a load are the single header-sector read followed by
the chunked read of the whole region, restarting at `START_LBA`. -/
theorem load_calls_of_magic (rd : Nat → Nat → Option (List Nat)) (root : DirM)
    (first : List Nat) (h1 : rd START_LBA 1 = some first) (hm : fromLE4 first = MAGIC)
    (hsome : (readChunksAcc rd START_LBA ((8 + fromLE4 (first.drop 4) + 511) / 512)).1.isSome) :
    (load_from_disk rd root).calls =
      (START_LBA, 1) :: chunkCalls START_LBA ((8 + fromLE4 (first.drop 4) + 511) / 512) := by
  rcases h2 : readChunksAcc rd START_LBA ((8 + fromLE4 (first.drop 4) + 511) / 512)
    with ⟨o, calls⟩
  cases o with
  | none => rw [h2] at hsome; simp at hsome
  | some buf =>
    have hcalls : calls = chunkCalls START_LBA ((8 + fromLE4 (first.drop 4) + 511) / 512) := by
      have hs : (readChunksF rd ((8 + fromLE4 (first.drop 4) + 511) / 512) START_LBA
          ((8 + fromLE4 (first.drop 4) + 511) / 512)).1.isSome := by
        rw [show readChunksF rd ((8 + fromLE4 (first.drop 4) + 511) / 512) START_LBA
            ((8 + fromLE4 (first.drop 4) + 511) / 512) =
          readChunksAcc rd START_LBA ((8 + fromLE4 (first.drop 4) + 511) / 512) from rfl, h2]
        rfl
      have hc := readChunksF_calls rd ((8 + fromLE4 (first.drop 4) + 511) / 512) START_LBA
        ((8 + fromLE4 (first.drop 4) + 511) / 512) hs
      rw [show readChunksF rd ((8 + fromLE4 (first.drop 4) + 511) / 512) START_LBA
          ((8 + fromLE4 (first.drop 4) + 511) / 512) =
        readChunksAcc rd START_LBA ((8 + fromLE4 (first.drop 4) + 511) / 512) from rfl, h2] at hc
      exact hc
    cases h3 : decodeSDir ((buf.drop 8).take (fromLE4 (first.drop 4))) with
    | none =>
      rw [load_from_disk_eq_baddecode h1 hm h2 h3]
      rw [hcalls]
    | some snap =>
      rw [load_from_disk_eq_ok h1 hm h2 h3]
      rw [hcalls]

/-- Sector multiset covered by such a load: the header sector once, then the
whole region once more, so the sector at `START_LBA` is read exactly twice and
every other sector of the region exactly once. -/
theorem sectorsRead_header_region (R : Nat) (hR : 1 ≤ R) (hwrap : START_LBA + R ≤ 4294967296) :
    sectorsRead ((START_LBA, 1) :: chunkCalls START_LBA R) =
      START_LBA :: List.range' START_LBA R ∧
    List.count START_LBA (START_LBA :: List.range' START_LBA R) = 2 ∧
    (∀ sec, sec ∈ List.range' (START_LBA + 1) (R - 1) →
      List.count sec (START_LBA :: List.range' START_LBA R) = 1) := by
  have hsect := chunkCallsF_sectors R R START_LBA le_rfl hwrap
  refine ⟨?_, ?_, ?_⟩
  · rw [sectorsRead, List.map_cons, List.flatten_cons, chunkCalls, hsect]
    rfl
  · rw [List.count_cons]
    have hmem : START_LBA ∈ List.range' START_LBA R := by
      rw [List.mem_range'_1]
      omega
    rw [List.count_eq_one_of_mem (List.nodup_range' _ _) hmem]
    simp
  · intro sec hsec
    rw [List.mem_range'_1] at hsec
    rw [List.count_cons]
    have hmem : sec ∈ List.range' START_LBA R := by
      rw [List.mem_range'_1]
      omega
    rw [List.count_eq_one_of_mem (List.nodup_range' _ _) hmem]
    have : ¬ (START_LBA == sec) = true := by
      simp only [beq_iff_eq]
      omega
    simp [this]

/-! ## Generic facts about the first sector of a saved snapshot -/

theorem snapshotBytes_assoc (t : DirM) :
    snapshotBytes t =
      le4 MAGIC ++ (le4 (encodeSDir (to_serializable t)).length
        ++ (encodeSDir (to_serializable t)
          ++ List.replicate
            (snapshotSectors t * 512 - (8 + (encodeSDir (to_serializable t)).length)) 0)) := by
  rw [snapshotBytes_decomp]
  simp [List.append_assoc]

theorem snapshot_magic (t : DirM) : fromLE4 ((snapshotBytes t).take (1 * 512)) = MAGIC := by
  rw [fromLE4_take (by omega), snapshotBytes_assoc, fromLE4_le4]
  rfl

/-- The on-disk length field holds the payload length *reduced modulo `2^32`*
(the `data.len() as u32` cast). -/
theorem snapshot_lenfield (t : DirM) :
    fromLE4 (((snapshotBytes t).take (1 * 512)).drop 4) =
      (encodeSDir (to_serializable t)).length % 4294967296 := by
  rw [List.drop_take, fromLE4_take (by omega), snapshotBytes_assoc]
  have h4 : (4 : Nat) = (le4 MAGIC).length := rfl
  rw [h4, List.drop_left, fromLE4_le4]

theorem snapshot_first_payload (t : DirM) :
    ((snapshotBytes t).take (1 * 512)).drop 8 =
      (encodeSDir (to_serializable t)
        ++ List.replicate
          (snapshotSectors t * 512 - (8 + (encodeSDir (to_serializable t)).length)) 0).take 504 := by
  rw [List.drop_take]
  have hdrop : (snapshotBytes t).drop 8 =
      encodeSDir (to_serializable t)
        ++ List.replicate
          (snapshotSectors t * 512 - (8 + (encodeSDir (to_serializable t)).length)) 0 := by
    rw [snapshotBytes_decomp,
      List.append_assoc (le4 MAGIC ++ le4 (encodeSDir (to_serializable t)).length)]
    have h8 : (8 : Nat) =
        (le4 MAGIC ++ le4 (encodeSDir (to_serializable t)).length).length := rfl
    rw [h8, List.drop_left]
  rw [hdrop]

/-! ## Concrete trees: the 32-bit length-field edge case and the 256-sector
witness -/

/-- A disk holding zero bytes everywhere. -/
def zeroDisk : Disk := fun _ => 0

/-- A tree whose encoded payload is `2^32 + 11` bytes: one file of `2^32` zero
bytes.  Its payload length does not fit the 32-bit length field of the
on-disk header. -/
def bigTree : DirM :=
  DirM.mk [114] [([97], ⟨[97], List.replicate 4294967296 0⟩)] []

/-- A tree whose encoded payload is exactly `255 · 512 + 1` bytes: one file of
130 552 zero bytes.  Its framed snapshot spans exactly 256 sectors. -/
def witTree : DirM :=
  DirM.mk [114] [([97], ⟨[97], List.replicate 130552 0⟩)] []

theorem encode_oneFile (content : List Nat) :
    encodeSDir (to_serializable (DirM.mk [114] [([97], FileM.mk [97] content)] [])) =
      1 :: 114 :: 1 :: 1 :: 97 :: (encodeVarint content.length ++ (content ++ [0])) := by
  have hts : to_serializable (DirM.mk [114] [([97], FileM.mk [97] content)] []) =
      SDir.mk [114] [SFile.mk [97] content] [] := by
    rw [to_serializable_mk]
    rfl
  have e0 : encodeVarint 0 = [0] := by decide
  have e1 : encodeVarint 1 = [1] := by decide
  rw [hts, encodeSDir_mk]
  simp [encodeBytes, encodeSFile, e0, e1, List.append_assoc]

theorem length_encode_oneFile (content : List Nat) :
    (encodeSDir (to_serializable (DirM.mk [114] [([97], FileM.mk [97] content)] []))).length =
      6 + (encodeVarint content.length).length + content.length := by
  rw [encode_oneFile]
  simp [List.length_append]
  omega

theorem WF_oneFile (content : List Nat) :
    WFdir (DirM.mk [114] [([97], FileM.mk [97] content)] []) := by
  refine WFdir.mk _ _ _ ?_ ?_ ?_ ?_ ?_
  · simp [sortedKeys]
  · intro kv hkv
    simp only [List.mem_singleton] at hkv
    rw [hkv]
  · simp [sortedKeys]
  · intro kv hkv
    simp at hkv
  · intro kv hkv
    simp at hkv

theorem length_encode_bigTree :
    (encodeSDir (to_serializable bigTree)).length = 4294967307 := by
  have h := length_encode_oneFile (List.replicate 4294967296 0)
  rw [show bigTree = DirM.mk [114] [([97], FileM.mk [97] (List.replicate 4294967296 0))] []
    from rfl]
  rw [h, List.length_replicate]
  have hv : encodeVarint 4294967296 = [128, 128, 128, 128, 16] := by decide
  rw [hv]
  rfl

theorem snapshotSectors_bigTree : snapshotSectors bigTree = 8388609 := by
  rw [snapshotSectors_eq, length_encode_bigTree]

theorem length_encode_witTree :
    (encodeSDir (to_serializable witTree)).length = 130561 := by
  have h := length_encode_oneFile (List.replicate 130552 0)
  rw [show witTree = DirM.mk [114] [([97], FileM.mk [97] (List.replicate 130552 0))] []
    from rfl]
  rw [h, List.length_replicate]
  have hv : encodeVarint 130552 = [248, 251, 7] := by decide
  rw [hv]
  rfl

theorem snapshotSectors_witTree : snapshotSectors witTree = 256 := by
  rw [snapshotSectors_eq, length_encode_witTree]

/-- Saving `bigTree` then loading fails: the header's 32-bit length field
holds `(2^32 + 11) % 2^32 = 11`, so the load reads a single sector, slices an
11-byte payload, and the decode fails — the tree is *not* reconstructed. -/
theorem bigTree_load :
    load_from_disk (rdOf (save_to_disk bigTree zeroDisk)) (DirM.mk [] [] []) =
      ⟨.error (), DirM.mk [] [] [], [(START_LBA, 1), (2048, 1)]⟩ := by
  have hlen := length_encode_bigTree
  have hS := snapshotSectors_bigTree
  have hST : START_LBA = 2048 := rfl
  have hwrap : START_LBA + snapshotSectors bigTree ≤ 4294967296 := by omega
  have hpos : 1 ≤ snapshotSectors bigTree := snapshotSectors_pos _
  have hfirst : rdOf (save_to_disk bigTree zeroDisk) START_LBA 1 =
      some ((snapshotBytes bigTree).take (1 * 512)) := by
    have h0 : rdOf (save_to_disk bigTree zeroDisk) START_LBA 1 =
        some (diskReadBytes (save_to_disk bigTree zeroDisk) START_LBA 1) := rfl
    rw [h0, diskReadBytes_save _ _ hwrap 1 hpos]
  have hmagic := snapshot_magic bigTree
  have hlf : fromLE4 (((snapshotBytes bigTree).take (1 * 512)).drop 4) = 11 := by
    rw [snapshot_lenfield, hlen]
  have hR : (8 + fromLE4 (((snapshotBytes bigTree).take (1 * 512)).drop 4) + 511) / 512 = 1 := by
    rw [hlf]
  have hwrap1 : START_LBA + 1 ≤ 4294967296 := by omega
  have hchunks : readChunksAcc (rdOf (save_to_disk bigTree zeroDisk)) START_LBA
      ((8 + fromLE4 (((snapshotBytes bigTree).take (1 * 512)).drop 4) + 511) / 512) =
      (some ((snapshotBytes bigTree).take (1 * 512)), [(2048, 1)]) := by
    rw [hR, readChunksAcc_rdOf _ _ _ hwrap1, diskReadBytes_save _ _ hwrap 1 hpos]
    rfl
  have hpayload : ((((snapshotBytes bigTree).take (1 * 512)).drop 8).take
      (fromLE4 (((snapshotBytes bigTree).take (1 * 512)).drop 4))) =
      [1, 114, 1, 1, 97, 128, 128, 128, 128, 16, 0] := by
    rw [hlf, snapshot_first_payload, List.take_take]
    rw [show min 11 504 = 11 from rfl]
    rw [show bigTree = DirM.mk [114] [([97], FileM.mk [97] (List.replicate 4294967296 0))] []
      from rfl, encode_oneFile]
    have hv : encodeVarint (List.replicate 4294967296 0).length = [128, 128, 128, 128, 16] := by
      rw [List.length_replicate]
      decide
    rw [hv]
    rw [show (4294967296 : Nat) = 4294967295 + 1 from rfl, List.replicate_succ]
    simp only [List.cons_append, List.nil_append, List.take_succ_cons, List.take_zero]
  have hdecode : decodeSDir ((((snapshotBytes bigTree).take (1 * 512)).drop 8).take
      (fromLE4 (((snapshotBytes bigTree).take (1 * 512)).drop 4))) = none := by
    rw [hpayload]
    rfl
  rw [load_from_disk_eq_baddecode hfirst hmagic hchunks hdecode]

/-! ## The claims -/

/-- C1: For every tree representable by the mirror structure (`SDir`/`SFile`),
including empty directories, empty files, and files with empty or non-UTF-8
binary content, decoding the encoding of the tree yields a tree structurally
equal to it: same names, same nesting, same byte contents, and the same
ordering of files and subdirectories. -/
theorem claim_C1 (t : SDir) : decodeSDir (encodeSDir t) = some t :=
  decodeSDir_encodeSDir t

/-- C2 counterexample: the claim says no driver write is issued while the tree
lock is held during `save_to_disk`; but already for the one-chunk tree
`DirM.mk [114] [] []` the save trace contains a driver write between the lock
acquisition and the lock release (the `ROOT_DIR.lock()` guard is dropped only
at function exit). -/
theorem claim_C2_cex : writesWhileLocked (saveEvents (DirM.mk [114] [] [])) false ≠ 0 := by
  rw [saveEvents_writesWhileLocked (DirM.mk [114] [] [])]
  have h := chunkCalls_length_pos START_LBA (snapshotSectors (DirM.mk [114] [] []))
    (snapshotSectors_pos _)
  omega

/-- C2 (amended): during `save_to_disk` the exclusive tree lock is held for
the whole call — every driver write (and there is at least one) is issued
while the lock is held, and the lock is released only as the final event, when
the function returns. -/
theorem claim_C2 (t : DirM) :
    writesWhileLocked (saveEvents t) false = countWrites (saveEvents t) ∧
    1 ≤ writesWhileLocked (saveEvents t) false ∧
    (saveEvents t).getLast? = some SaveEv.unlockTree := by
  refine ⟨?_, ?_, saveEvents_last t⟩
  · rw [saveEvents_writesWhileLocked, saveEvents_countWrites]
  · rw [saveEvents_writesWhileLocked]
    exact chunkCalls_length_pos _ _ (snapshotSectors_pos t)

/-- C3: whenever `load_from_disk` returns an error — a driver read failure, a
magic mismatch, or a payload decode failure — the live in-memory tree is left
exactly at its prior state, with no partial replacement or merge. -/
theorem claim_C3 (rd : Nat → Nat → Option (List Nat)) (root : DirM)
    (h : (load_from_disk rd root).res = .error ()) :
    (load_from_disk rd root).root = root :=
  load_error_root rd root h

theorem claim_C3_witness :
    (load_from_disk (fun _ _ => none) (DirM.mk [104] [] [])).res = .error () ∧
    (load_from_disk (fun _ _ => none) (DirM.mk [104] [] [])).root = DirM.mk [104] [] [] :=
  ⟨rfl, claim_C3 (fun _ _ => none) (DirM.mk [104] [] []) rfl⟩

/-- C4 counterexample: the claim's round trip fails for `bigTree`, a
well-formed tree whose snapshot spans more than 255 sectors (so the save is
chunked): its payload is `2^32 + 11` bytes, the `data.len() as u32` header
field truncates to 11, and the subsequent load returns an error instead of
reconstructing the tree. -/
theorem claim_C4_cex :
    WFdir bigTree ∧ 255 < snapshotSectors bigTree ∧
    (load_from_disk (rdOf (save_to_disk bigTree zeroDisk)) (DirM.mk [] [] [])).res =
      .error () := by
  refine ⟨WF_oneFile _, ?_, ?_⟩
  · rw [snapshotSectors_bigTree]; omega
  · rw [bigTree_load]

/-- C4 (amended): for every well-formed tree whose framed snapshot spans more
than 255 sectors (so both save and load are split into several chunked driver
calls) *and* whose payload length fits the 32-bit header length field, a save
followed by a load succeeds, reconstructs exactly the saved tree, and the
chunked reads return exactly the bytes written across every chunk boundary. -/
theorem claim_C4 (t : DirM) (d0 : Disk) (r0 : DirM) (hwf : WFdir t)
    (hlen : (encodeSDir (to_serializable t)).length < 4294967296)
    (hS : 255 < snapshotSectors t) :
    ((load_from_disk (rdOf (save_to_disk t d0)) r0).res = .ok () ∧
      (load_from_disk (rdOf (save_to_disk t d0)) r0).root = t) ∧
    (readChunksAcc (rdOf (save_to_disk t d0)) START_LBA (snapshotSectors t)).1 =
      some (snapshotBytes t) := by
  have h := load_after_save t d0 r0 hwf hlen
  have hwrap := snapshot_hwrap t hlen
  have hfull : diskReadBytes (save_to_disk t d0) START_LBA (snapshotSectors t) =
      snapshotBytes t := by
    rw [diskReadBytes_save t d0 hwrap _ le_rfl, ← length_snapshotBytes, List.take_length]
  refine ⟨⟨by rw [h], by rw [h]⟩, ?_⟩
  rw [readChunksAcc_rdOf _ _ _ hwrap, hfull]

theorem claim_C4_witness :
    (WFdir witTree ∧ (encodeSDir (to_serializable witTree)).length < 4294967296 ∧
      255 < snapshotSectors witTree) ∧
    ((load_from_disk (rdOf (save_to_disk witTree zeroDisk)) (DirM.mk [] [] [])).res =
        .ok () ∧
      (load_from_disk (rdOf (save_to_disk witTree zeroDisk)) (DirM.mk [] [] [])).root =
        witTree) ∧
    (readChunksAcc (rdOf (save_to_disk witTree zeroDisk)) START_LBA
        (snapshotSectors witTree)).1 = some (snapshotBytes witTree) := by
  have hwf : WFdir witTree := WF_oneFile (List.replicate 130552 0)
  have hlen : (encodeSDir (to_serializable witTree)).length < 4294967296 := by
    rw [length_encode_witTree]; omega
  have hS : 255 < snapshotSectors witTree := by
    rw [snapshotSectors_witTree]; omega
  exact ⟨⟨hwf, hlen, hS⟩, claim_C4 witTree zeroDisk (DirM.mk [] [] []) hwf hlen hS⟩

/-- C5 counterexample: the claim says bytes 4–7 of the written region hold the
payload length; for `bigTree` the payload length is `2^32 + 11` but the field
holds `11` (`data.len() as u32` truncates), so the stored field does not equal
the payload length. -/
theorem claim_C5_cex :
    fromLE4 ((diskReadBytes (save_to_disk bigTree zeroDisk) START_LBA 1).drop 4) = 11 ∧
    (encodeSDir (to_serializable bigTree)).length = 4294967307 ∧
    (11 : Nat) ≠ 4294967307 := by
  refine ⟨?_, length_encode_bigTree, by omega⟩
  have hwrap : START_LBA + snapshotSectors bigTree ≤ 4294967296 := by
    have h1 := snapshotSectors_bigTree
    have h2 : START_LBA = 2048 := rfl
    omega
  rw [diskReadBytes_save _ _ hwrap 1 (snapshotSectors_pos _), snapshot_lenfield,
    length_encode_bigTree]

/-- C5 (amended): after a save of a tree whose payload length fits the 32-bit
field, the written region at byte `START_LBA * 512` holds: the magic constant
little-endian in bytes 0–3, the payload length little-endian in bytes 4–7
(recoverable from the first sector), the payload bytes from offset 8, zero
padding up to the next 512-byte boundary, and nothing else — the region length
`snapshotSectors t * 512` is the least multiple of 512 that fits header plus
payload, and every disk byte outside the region is unchanged. -/
theorem claim_C5 (t : DirM) (d0 : Disk)
    (hlen : (encodeSDir (to_serializable t)).length < 4294967296) :
    (∀ i, i < 4 →
      save_to_disk t d0 (START_LBA * 512 + i) = (le4 MAGIC).getD i 0) ∧
    (∀ i, i < 4 →
      save_to_disk t d0 (START_LBA * 512 + 4 + i) =
        (le4 (encodeSDir (to_serializable t)).length).getD i 0) ∧
    fromLE4 ((diskReadBytes (save_to_disk t d0) START_LBA 1).drop 4) =
      (encodeSDir (to_serializable t)).length ∧
    (∀ i, i < (encodeSDir (to_serializable t)).length →
      save_to_disk t d0 (START_LBA * 512 + 8 + i) =
        (encodeSDir (to_serializable t)).getD i 0) ∧
    (∀ i, 8 + (encodeSDir (to_serializable t)).length ≤ i →
      i < snapshotSectors t * 512 → save_to_disk t d0 (START_LBA * 512 + i) = 0) ∧
    (∀ a, a < START_LBA * 512 ∨ START_LBA * 512 + snapshotSectors t * 512 ≤ a →
      save_to_disk t d0 a = d0 a) ∧
    (8 + (encodeSDir (to_serializable t)).length ≤ snapshotSectors t * 512 ∧
      snapshotSectors t * 512 % 512 = 0 ∧
      ∀ m, m % 512 = 0 → 8 + (encodeSDir (to_serializable t)).length ≤ m →
        snapshotSectors t * 512 ≤ m) := by
  have hwrap := snapshot_hwrap t hlen
  have hS := snapshotSectors_pos t
  have hSe := snapshotSectors_eq t
  refine ⟨?_, ?_, ?_, ?_, ?_, ?_, ?_⟩
  · intro i hi
    rw [save_to_disk_byte_in t d0 hwrap (by omega) (by omega)]
    have hidx : START_LBA * 512 + i - START_LBA * 512 = i := by omega
    rw [hidx, snapshotBytes_assoc,
      List.getD_append _ _ _ _ (show i < (le4 MAGIC).length by simp [le4]; omega)]
  · intro i hi
    rw [save_to_disk_byte_in t d0 hwrap (by omega) (by omega)]
    have hidx : START_LBA * 512 + 4 + i - START_LBA * 512 = 4 + i := by omega
    rw [hidx, snapshotBytes_assoc,
      List.getD_append_right _ _ _ _ (show (le4 MAGIC).length ≤ 4 + i by simp [le4]),
      List.getD_append _ _ _ _
        (show 4 + i - (le4 MAGIC).length <
          (le4 (encodeSDir (to_serializable t)).length).length by simp [le4]; omega)]
    have hidx2 : 4 + i - (le4 MAGIC).length = i := by simp [le4]
    rw [hidx2]
  · rw [diskReadBytes_save t d0 hwrap 1 hS, snapshot_lenfield,
      Nat.mod_eq_of_lt hlen]
  · intro i hi
    rw [save_to_disk_byte_in t d0 hwrap (by omega) (by omega)]
    have hidx : START_LBA * 512 + 8 + i - START_LBA * 512 = 8 + i := by omega
    rw [hidx, snapshotBytes_decomp]
    rw [List.append_assoc (le4 MAGIC), List.append_assoc (le4 MAGIC)]
    rw [List.getD_append_right _ _ _ _ (show (le4 MAGIC).length ≤ 8 + i by simp [le4]; omega)]
    have hidx2 : 8 + i - (le4 MAGIC).length = 4 + i := by
      simp only [le4, List.length_cons, List.length_nil]
      omega
    rw [hidx2, List.append_assoc]
    rw [List.getD_append_right _ _ _ _
      (show (le4 (encodeSDir (to_serializable t)).length).length ≤ 4 + i by simp [le4])]
    have hidx3 : 4 + i - (le4 (encodeSDir (to_serializable t)).length).length = i := by
      simp only [le4, List.length_cons, List.length_nil]
      omega
    rw [hidx3, List.getD_append _ _ _ _ hi]
  · intro i hlow hhigh
    rw [save_to_disk_byte_in t d0 hwrap (by omega) (by omega)]
    have hidx : START_LBA * 512 + i - START_LBA * 512 = i := by omega
    rw [hidx, snapshotBytes]
    apply padToSector_zeros
    · simp only [List.length_append, le4, List.length_cons, List.length_nil]
      omega
    · simp only [List.length_append, le4, List.length_cons, List.length_nil]
      omega
  · intro a ha
    exact save_to_disk_byte_out t d0 hwrap ha
  · exact ⟨by omega, by omega, fun m hm hle => by omega⟩

theorem claim_C5_witness :
    (encodeSDir (to_serializable witTree)).length < 4294967296 ∧
    fromLE4 ((diskReadBytes (save_to_disk witTree zeroDisk) START_LBA 1).drop 4) =
      (encodeSDir (to_serializable witTree)).length ∧
    (∀ i, i < 4 →
      save_to_disk witTree zeroDisk (START_LBA * 512 + i) = (le4 MAGIC).getD i 0) ∧
    (∀ a, a < START_LBA * 512 ∨ START_LBA * 512 + snapshotSectors witTree * 512 ≤ a →
      save_to_disk witTree zeroDisk a = zeroDisk a) := by
  have hlen : (encodeSDir (to_serializable witTree)).length < 4294967296 := by
    rw [length_encode_witTree]; omega
  have h := claim_C5 witTree zeroDisk hlen
  exact ⟨hlen, h.2.2.1, h.1, h.2.2.2.2.2.1⟩

/-- A status stream whose first seven reads return 0 and whose eighth returns
the all-ones value: the reads are not unchanging, yet the device is reported
absent. -/
def statusLastOnes : Nat → Nat := fun i => if i = 7 then 255 else 0

/-- A status stream constantly returning 255. -/
def statusAllOnes : Nat → Nat := fun _ => 255

/-- A status stream constantly returning `0x81` (busy and error bits set). -/
def statusBusyErr : Nat → Nat := fun _ => 129

/-- A status stream constantly returning `0x40` (ready bit set). -/
def statusReadyImm : Nat → Nat := fun _ => 64

/-- C6 counterexample: the claim says the device is absent exactly when the
eight status reads are unchanging and equal to the all-ones value; the stream
`statusLastOnes` (seven zero reads, then one `0xFF` read) is not unchanging,
yet `ata_present` reports the device absent — only the final read is ever
consulted, the `same` counter is dead. -/
theorem claim_C6_cex :
    ¬ (ata_present statusLastOnes = false ↔
      ((∀ i, i < 8 → ∀ j, j < 8 → statusLastOnes i % 256 = statusLastOnes j % 256) ∧
        statusLastOnes 0 % 256 = 255)) := by
  decide

/-- C6 (amended): the device is reported absent exactly when the *final*
(eighth) status read returns the all-ones value, regardless of the earlier
seven reads; against such a device, reads and writes with well-sized buffers
fail without transferring any data. -/
theorem claim_C6 (s : Nat → Nat) :
    (ata_present s = false ↔ s 7 % 256 = 255) ∧
    (∀ dataw lba cnt buflen, cnt ≠ 0 → ¬ buflen < cnt * 512 → s 7 % 256 = 255 →
      (read_lba28 s dataw lba cnt buflen).res = .error () ∧
      (read_lba28 s dataw lba cnt buflen).buf = []) ∧
    (∀ lba cnt data, cnt ≠ 0 → ¬ data.length < cnt * 512 → s 7 % 256 = 255 →
      (write_lba28 s lba cnt data).res = .error ()) := by
  refine ⟨ata_present_false_iff s, ?_, ?_⟩
  · intro dataw lba cnt buflen h0 h1 hp
    rw [read_lba28_notpresent s dataw lba cnt buflen h0 h1 hp]
    exact ⟨rfl, rfl⟩
  · intro lba cnt data h0 h1 hp
    rw [write_lba28_notpresent s lba cnt data h0 h1 hp]

theorem claim_C6_witness :
    (ata_present statusAllOnes = false ↔ statusAllOnes 7 % 256 = 255) ∧
    ((1 : Nat) ≠ 0 ∧ ¬ (512 : Nat) < 1 * 512 ∧ statusAllOnes 7 % 256 = 255 ∧
      ¬ (List.replicate 512 0).length < 1 * 512) ∧
    ((read_lba28 statusAllOnes (fun _ => 0) 0 1 512).res = .error () ∧
      (read_lba28 statusAllOnes (fun _ => 0) 0 1 512).buf = []) ∧
    (write_lba28 statusAllOnes 0 1 (List.replicate 512 0)).res = .error () := by
  have h := claim_C6 statusAllOnes
  refine ⟨h.1, ⟨by omega, by omega, by decide, by simp⟩, ?_, ?_⟩
  · exact h.2.1 (fun _ => 0) 0 1 512 (by omega) (by omega) (by decide)
  · exact h.2.2 0 1 (List.replicate 512 0) (by omega) (by simp) (by decide)

/-- C7 counterexample: the claim says the wait fails immediately on the first
status read whose error bit is set (and that is neither of the noise values
0x00/0xFF); against the constant stream `0x81` — error bit set, not noise —
the wait does not fail at the first read: the busy bit is tested first, every
read is treated as "still busy", and the call only fails after exhausting all
1 000 000 iterations. -/
theorem claim_C7_cex :
    (statusBusyErr 0 % 256 ≠ 0 ∧ statusBusyErr 0 % 256 ≠ 255 ∧
      (statusBusyErr 0 % 256).testBit 0 = true) ∧
    ata_wait_ready statusBusyErr 0 = (.error (), 1000000) ∧
    (1000000 : Nat) ≠ 0 + 1 := by
  refine ⟨by decide, ?_, by omega⟩
  apply ata_wait_ready_timeout
  intro i hi
  show classifyStatus 129 = .cont
  decide

/-- C7 (amended): each status read of `ata_wait_ready` is classified in this
order — the noise values 0x00/0xFF keep polling, then a set busy bit keeps
polling, then a set error or device-fault bit fails, then a set ready bit
succeeds, anything else keeps polling; the loop returns the first non-`cont`
verdict, failing after 1 000 000 reads if none arrives. So an error bit aborts
the wait only when busy is clear and the byte is not a noise value. -/
theorem claim_C7 (s : Nat → Nat) :
    (∀ v, v < 256 →
      (classifyStatus v = .cont ↔
        (v = 0 ∨ v = 255 ∨ v.testBit 7 = true ∨
          (v.testBit 0 = false ∧ v.testBit 5 = false ∧ v.testBit 6 = false))) ∧
      (classifyStatus v = .fail ↔
        (v ≠ 0 ∧ v ≠ 255 ∧ v.testBit 7 = false ∧
          (v.testBit 0 = true ∨ v.testBit 5 = true))) ∧
      (classifyStatus v = .ready ↔
        (v ≠ 0 ∧ v ≠ 255 ∧ v.testBit 7 = false ∧ v.testBit 0 = false ∧
          v.testBit 5 = false ∧ v.testBit 6 = true))) ∧
    ((∀ i, i < 1000000 → classifyStatus (s i % 256) = .cont) →
      ata_wait_ready s 0 = (.error (), 1000000)) ∧
    (∀ j, j < 1000000 → (∀ i, i < j → classifyStatus (s i % 256) = .cont) →
      classifyStatus (s j % 256) = .fail → ata_wait_ready s 0 = (.error (), j + 1)) ∧
    (∀ j, j < 1000000 → (∀ i, i < j → classifyStatus (s i % 256) = .cont) →
      classifyStatus (s j % 256) = .ready → ata_wait_ready s 0 = (.ok (), j + 1)) := by
  refine ⟨classifyStatus_iff, ?_, ?_, ?_⟩
  · intro h
    exact ata_wait_ready_timeout s h
  · intro j hj hpre hf
    exact ata_wait_ready_first_fail s j hj hpre hf
  · intro j hj hpre hf
    exact ata_wait_ready_first_ready s j hj hpre hf

theorem claim_C7_witness :
    ((0 : Nat) < 1000000 ∧ classifyStatus (statusReadyImm 0 % 256) = .ready) ∧
    ata_wait_ready statusReadyImm 0 = (.ok (), 0 + 1) := by
  refine ⟨⟨by omega, by decide⟩, ?_⟩
  exact (claim_C7 statusReadyImm).2.2.2 0 (by omega)
    (fun i hi => absurd hi (by omega)) (by decide)

/-- The bytes of a minimal valid snapshot image: magic `KFS1` little-endian,
length field 4, and the 4-byte encoding of an empty directory named `r`. -/
def img8 : List Nat := [49, 83, 70, 75, 4, 0, 0, 0, 1, 114, 0, 0]

/-- A disk holding `img8` at byte `START_LBA * 512 = 1048576` (zeros
elsewhere in the snapshot region). -/
def dev8 : Disk := fun a => img8.getD (a - 1048576) 0

/-- C8 counterexample: the claim says each sector of the snapshot region is
read exactly once per load; loading the one-sector image `dev8` succeeds, yet
its only sector (`START_LBA`) is read twice — once for the header and again
by the chunk loop, which restarts at `START_LBA`. -/
theorem claim_C8_cex :
    (load_from_disk (rdOf dev8) (DirM.mk [] [] [])).res = .ok () ∧
    List.count START_LBA
      (sectorsRead ((load_from_disk (rdOf dev8) (DirM.mk [] [] [])).calls)) = 2 := by
  constructor
  · rfl
  · decide

/-- C8 (amended): a load whose header parses and whose chunked reads all
succeed reads the header sector once, then re-reads the *entire* snapshot
region starting again from `START_LBA`; consequently the first sector of the
region is read exactly twice and every other sector of the region exactly
once. -/
theorem claim_C8 (rd : Nat → Nat → Option (List Nat)) (root : DirM) (first : List Nat)
    (h1 : rd START_LBA 1 = some first) (hm : fromLE4 first = MAGIC)
    (hsome : (readChunksAcc rd START_LBA ((8 + fromLE4 (first.drop 4) + 511) / 512)).1.isSome) :
    (load_from_disk rd root).calls =
      (START_LBA, 1) :: chunkCalls START_LBA ((8 + fromLE4 (first.drop 4) + 511) / 512) ∧
    sectorsRead ((load_from_disk rd root).calls) =
      START_LBA :: List.range' START_LBA ((8 + fromLE4 (first.drop 4) + 511) / 512) ∧
    List.count START_LBA (sectorsRead ((load_from_disk rd root).calls)) = 2 ∧
    (∀ sec, sec ∈ List.range' (START_LBA + 1) ((8 + fromLE4 (first.drop 4) + 511) / 512 - 1) →
      List.count sec (sectorsRead ((load_from_disk rd root).calls)) = 1) := by
  have hcalls := load_calls_of_magic rd root first h1 hm hsome
  have hR1 : 1 ≤ (8 + fromLE4 (first.drop 4) + 511) / 512 := by omega
  have hwrapR : START_LBA + (8 + fromLE4 (first.drop 4) + 511) / 512 ≤ 4294967296 := by
    have hlt := fromLE4_lt (first.drop 4)
    have h2 : START_LBA = 2048 := rfl
    omega
  have hsect := sectorsRead_header_region _ hR1 hwrapR
  refine ⟨hcalls, ?_, ?_, ?_⟩
  · rw [hcalls]
    exact hsect.1
  · rw [hcalls, hsect.1]
    exact hsect.2.1
  · intro sec hsec
    rw [hcalls, hsect.1]
    exact hsect.2.2 sec hsec

theorem claim_C8_witness :
    (rdOf dev8 START_LBA 1 = some (diskReadBytes dev8 START_LBA 1) ∧
      fromLE4 (diskReadBytes dev8 START_LBA 1) = MAGIC ∧
      (readChunksAcc (rdOf dev8) START_LBA
        ((8 + fromLE4 ((diskReadBytes dev8 START_LBA 1).drop 4) + 511) / 512)).1.isSome =
          true) ∧
    sectorsRead ((load_from_disk (rdOf dev8) (DirM.mk [] [] [])).calls) =
      START_LBA :: List.range' START_LBA
        ((8 + fromLE4 ((diskReadBytes dev8 START_LBA 1).drop 4) + 511) / 512) := by
  have h := claim_C8 (rdOf dev8) (DirM.mk [] [] []) (diskReadBytes dev8 START_LBA 1)
    rfl (by decide) (by decide)
  exact ⟨⟨rfl, by decide, by decide⟩, h.2.1⟩

/-- C9: a read or write with a nonzero sector count and a buffer shorter than
`sector_count * 512` fails (`BufferTooSmall`) with an empty port trace: no
port I/O is issued and no hardware command is written. -/
theorem claim_C9 (s dataw : Nat → Nat) (lba cnt buflen : Nat) (data : List Nat)
    (h0 : cnt ≠ 0) (h1 : buflen < cnt * 512) (h2 : data.length < cnt * 512) :
    read_lba28 s dataw lba cnt buflen = ⟨.error (), [], []⟩ ∧
    write_lba28 s lba cnt data = ⟨.error (), [], []⟩ :=
  ⟨read_lba28_undersized s dataw lba cnt buflen h0 h1,
    write_lba28_undersized s lba cnt data h0 h2⟩

theorem claim_C9_witness :
    ((1 : Nat) ≠ 0 ∧ (100 : Nat) < 1 * 512 ∧ (List.replicate 100 0).length < 1 * 512) ∧
    read_lba28 (fun _ => 0) (fun _ => 0) 0 1 100 = ⟨.error (), [], []⟩ ∧
    write_lba28 (fun _ => 0) 0 1 (List.replicate 100 0) = ⟨.error (), [], []⟩ := by
  have h := claim_C9 (fun _ => 0) (fun _ => 0) 0 1 100 (List.replicate 100 0)
    (by omega) (by omega) (by simp)
  exact ⟨⟨by omega, by omega, by simp⟩, h⟩

/-- A small directory with one file, for the C10 witness. -/
def d10 : DirM := DirM.mk [100] [([97], FileM.mk [97] [1])] []

/-- C10: in a directory whose maps satisfy the `BTreeMap` invariant, adding a
file or a subdirectory under an existing name replaces the existing entry (the
key set is unchanged and the key now maps to the new value) rather than
creating a duplicate, and after every sequence of `add_file` / `add_subdir` /
`remove_file` / `remove_subdir` operations each name maps to at most one file
and at most one subdirectory. -/
theorem claim_C10 (d : DirM) (hd : goodMaps d) :
    (∀ f : FileM, f.name ∈ d.files.map Prod.fst →
      ((d.add_file f).files.map Prod.fst = d.files.map Prod.fst ∧
        lookupB f.name (d.add_file f).files = some f)) ∧
    (∀ sd : DirM, sd.name ∈ d.subdirs.map Prod.fst →
      ((d.add_subdir sd).subdirs.map Prod.fst = d.subdirs.map Prod.fst ∧
        lookupB sd.name (d.add_subdir sd).subdirs = some sd)) ∧
    (∀ (ops : List DirOp) (nm : List Nat),
      (applyOps d ops).files.countP (fun p => p.1 == nm) ≤ 1 ∧
      (applyOps d ops).subdirs.countP (fun p => p.1 == nm) ≤ 1) := by
  refine ⟨?_, ?_, ?_⟩
  · intro f hf
    exact ⟨keys_insertB_of_mem hd.1 hf, lookupB_insertB_self _ _ _⟩
  · intro sd hsd
    exact ⟨keys_insertB_of_mem hd.2 hsd, lookupB_insertB_self _ _ _⟩
  · intro ops nm
    have hg := goodMaps_applyOps ops d hd
    exact ⟨countP_key_le_one nm hg.1, countP_key_le_one nm hg.2⟩

theorem claim_C10_witness :
    (goodMaps d10 ∧ (FileM.mk [97] [2]).name ∈ d10.files.map Prod.fst) ∧
    ((d10.add_file (FileM.mk [97] [2])).files.map Prod.fst = d10.files.map Prod.fst ∧
      lookupB (FileM.mk [97] [2]).name (d10.add_file (FileM.mk [97] [2])).files =
        some (FileM.mk [97] [2])) := by
  have hg : goodMaps d10 := ⟨by simp [sortedKeys, d10], by simp [sortedKeys, d10]⟩
  have hm : (FileM.mk [97] [2]).name ∈ d10.files.map Prod.fst := by decide
  exact ⟨⟨hg, hm⟩, (claim_C10 d10 hg).1 (FileM.mk [97] [2]) hm⟩

end Katalyst

